import Mathlib

/-!
Verification of the AHP decision tool's computational core (`src/App.js`).

The JavaScript source is shallowly embedded below.  JavaScript numbers are
modelled by `AHP.JsNum`: an exact rational together with the IEEE special
values `+Infinity`, `-Infinity` and `NaN`.  The special-value propagation
rules of the arithmetic operators are reproduced exactly; rounding of finite
values and the sign of zero are outside the model (every claim below is
about exact arithmetic, tolerance bounds, or special-value behaviour, none
of which depend on rounding).
-/

namespace AHP

/-- Model of a JavaScript number: a finite (exact) rational, an infinity
with a sign (`true` = positive), or `NaN`. -/
inductive JsNum : Type where
  | num (q : ℚ)
  | inf (pos : Bool)
  | nan
  deriving DecidableEq, Repr

namespace JsNum

/-- Whether the value is `NaN` (the JS `isNaN` test on a number). -/
def isNaN : JsNum → Bool
  | nan => true
  | _ => false

/-- Sign used for infinity results of multiplication and division:
`true` when the finite operand is nonnegative. -/
def qpos (q : ℚ) : Bool := decide (0 ≤ q)

/-- JS addition, with IEEE special-value rules. -/
def jadd : JsNum → JsNum → JsNum
  | num a, num b => num (a + b)
  | num _, inf s => inf s
  | inf s, num _ => inf s
  | inf s, inf t => if s = t then inf s else nan
  | _, _ => nan

/-- JS unary minus. -/
def jneg : JsNum → JsNum
  | num a => num (-a)
  | inf s => inf (!s)
  | nan => nan

/-- JS subtraction (= addition of the negation). -/
def jsub (a b : JsNum) : JsNum := jadd a (jneg b)

/-- JS multiplication, with IEEE special-value rules (`0 * Infinity = NaN`). -/
def jmul : JsNum → JsNum → JsNum
  | num a, num b => num (a * b)
  | num a, inf s => if a = 0 then nan else inf (qpos a == s)
  | inf s, num b => if b = 0 then nan else inf (qpos b == s)
  | inf s, inf t => inf (s == t)
  | _, _ => nan

/-- JS division: division by zero yields a signed infinity (`0/0 = NaN`),
`Infinity / Infinity = NaN`, a finite value divided by infinity is `0`. -/
def jdiv : JsNum → JsNum → JsNum
  | num a, num b =>
      if b = 0 then (if a = 0 then nan else inf (qpos a)) else num (a / b)
  | num _, inf _ => num 0
  | inf s, num b => inf (qpos b == s)
  | inf _, inf _ => nan
  | _, _ => nan

/-- JS strict `<` comparison (`false` whenever an operand is `NaN`). -/
def jlt : JsNum → JsNum → Bool
  | num a, num b => decide (a < b)
  | num _, inf s => s
  | inf s, num _ => !s
  | inf s, inf t => !s && t
  | _, _ => false

/-- JS `<=` comparison (`false` whenever an operand is `NaN`). -/
def jle : JsNum → JsNum → Bool
  | num a, num b => decide (a ≤ b)
  | num _, inf s => s
  | inf s, num _ => !s
  | inf s, inf t => !s || t
  | _, _ => false

/-- JS strict equality `===` on numbers (`NaN === x` is `false`). -/
def jeq : JsNum → JsNum → Bool
  | num a, num b => decide (a = b)
  | inf s, inf t => s == t
  | _, _ => false

/-- JS `Math.min` (propagates `NaN`). -/
def jmin (a b : JsNum) : JsNum :=
  if a.isNaN || b.isNaN then nan else if jlt b a then b else a

/-- JS `Math.max` (propagates `NaN`). -/
def jmax (a b : JsNum) : JsNum :=
  if a.isNaN || b.isNaN then nan else if jlt a b then b else a

end JsNum

open JsNum

/-!
Stable sorting.  `Array.prototype.sort` with a consistent comparator is
required by the ECMAScript specification to be a stable sort; any stable
sort realises it, so we embed it as a stable insertion sort parameterised
by the predicate `le a b` = "comparator(a, b) ≤ 0", i.e. `a` may stay in
front of `b`.
-/

section StableSort

variable {α : Type} (le : α → α → Bool)

/-- Insert `a` in front of the first element `b` of an already-sorted list
with `le a b`; elements equal to `a` that are already present stay in front
only if they compare strictly smaller, so insertion from the right end of
the original list is stable. -/
def sIns (a : α) : List α → List α
  | [] => [a]
  | b :: l => if le a b then a :: b :: l else b :: sIns a l

/-- Stable insertion sort. -/
def sSort : List α → List α
  | [] => []
  | a :: l => sIns le a (sSort l)

end StableSort

/-!
Raw performance values.  A cell of the evaluation grid holds either a
string (typed into the numeric input or chosen from the qualitative
dropdown) or nothing (`undefined`); the buggy lookup `option.id[criterion.id]`
in `calculateOptionValues` can additionally produce a number (the string's
`length` property).
-/

/-- A JavaScript value as it can appear as a raw performance value. -/
inductive JsVal : Type where
  | undef
  | str (s : String)
  | numv (q : ℚ)
  deriving DecidableEq, Repr

/-- Whitespace accepted by JS number parsing (the forms occurring in the
inputs at hand). -/
def isWS (c : Char) : Bool := c = ' ' || c = '\t' || c = '\n' || c = '\r'

/-- Numeric value of a decimal digit character. -/
def digVal (c : Char) : ℚ := ((c.toNat - '0'.toNat : ℕ) : ℚ)

/-- Value of a digit string read as an integer. -/
def intVal (ds : List Char) : ℚ := ds.foldl (fun a c => a * 10 + digVal c) 0

/-- Model of JS `parseFloat` on a character list: skip leading whitespace,
optional sign, then either a decimal literal (integer part, optional
fraction, optional exponent) or the literal `Infinity`; trailing junk is
ignored; `NaN` when no digits are found.  Finite values are exact
rationals (float rounding is outside the model). -/
def parseFloatCore (cs : List Char) : JsNum :=
  let cs := cs.dropWhile isWS
  let sgnNeg : Bool := cs.headD ' ' = '-'
  let cs := if cs.headD ' ' = '-' || cs.headD ' ' = '+' then cs.tail else cs
  if "Infinity".toList.isPrefixOf cs then JsNum.inf (!sgnNeg)
  else
    let ds1 := cs.takeWhile Char.isDigit
    let cs1 := cs.dropWhile Char.isDigit
    let ds2 := if cs1.headD ' ' = '.' then cs1.tail.takeWhile Char.isDigit else []
    let cs2 := if cs1.headD ' ' = '.' then cs1.tail.dropWhile Char.isDigit else cs1
    if ds1 = [] ∧ ds2 = [] then JsNum.nan
    else
      let mant : ℚ := intVal ds1 + intVal ds2 / (10 : ℚ) ^ ds2.length
      let expPart : ℤ :=
        if cs2.headD ' ' = 'e' ∨ cs2.headD ' ' = 'E' then
          let cs3 := cs2.tail
          let eNeg : Bool := cs3.headD ' ' = '-'
          let cs3 := if cs3.headD ' ' = '-' || cs3.headD ' ' = '+' then cs3.tail else cs3
          let ds3 := cs3.takeWhile Char.isDigit
          if ds3 = [] then 0 else (if eNeg then -1 else 1) * (intVal ds3).num
        else 0
      JsNum.num ((if sgnNeg then -1 else 1) * mant * (10 : ℚ) ^ expPart)

/-- JS `parseFloat` on a string. -/
def parseFloatStr (s : String) : JsNum := parseFloatCore s.toList

/-- JS `parseFloat` applied to a raw value: `undefined` stringifies to
`"undefined"` (not parseable, `NaN`); a number round-trips through its
decimal representation unchanged. -/
def parseFloatVal : JsVal → JsNum
  | JsVal.undef => JsNum.nan
  | JsVal.str s => parseFloatStr s
  | JsVal.numv q => JsNum.num q

/-- A utility-table point (`{x: value, y: utility}` in the source). -/
structure Point : Type where
  x : ℚ
  y : ℚ
  deriving DecidableEq, Repr

/-- A qualitative level (`{label, utility}` in the source). -/
structure Level : Type where
  label : String
  utility : ℚ
  deriving DecidableEq, Repr

/-- Comparator predicate of `points.sort((a, b) => a.x - b.x)`:
`a` stays in front of `b` when the comparator is `≤ 0`. -/
def pointLe (p q : Point) : Bool := decide (p.x ≤ q.x)

/-- Stable sort of points by `x` ascending, as performed by
`points.slice().sort((a, b) => a.x - b.x)`. -/
def sortPoints (l : List Point) : List Point := sSort pointLe l

/-- The linear-interpolation formula `p1.y + slope * (x - p1.x)` from the
source, in JS arithmetic. -/
def lerpAt (p1 p2 : Point) (v : JsNum) : JsNum :=
  jadd (num p1.y)
    (jmul (jdiv (num (p2.y - p1.y)) (num (p2.x - p1.x))) (jsub v (num p1.x)))

/-- Final value of the scan `while (i < len && sorted[i].x < x) i++`:
the number of leading points whose `x` is strictly below the target. -/
def crossIdx (v : JsNum) : List Point → Nat
  | [] => 0
  | p :: l => if jlt (num p.x) v then crossIdx v l + 1 else 0

/-- Shallow embedding of `interpolate` (src/App.js, lines 132-153). -/
def interpolate (v : JsNum) (points : List Point) : JsNum :=
  match points with
  | [] => num 0
  | [p] => num p.y
  | p :: q :: rest =>
    let s := sortPoints (p :: q :: rest)
    let first := s.headD ⟨0, 0⟩
    let lastP := s.getLastD ⟨0, 0⟩
    if jle v (num first.x) then num first.y
    else if jle (num lastP.x) v then num lastP.y
    else
      let i := crossIdx v s
      let p1 := s.getD (i - 1) ⟨0, 0⟩
      let p2 := s.getD i ⟨0, 0⟩
      if p1.x = p2.x then num p1.y
      else lerpAt p1 p2 v

/-!
The expression evaluator.  The source's `safeEval` (src/App.js, lines
113-124) first rejects any string containing a character outside the
whitelist `{x, digits, whitespace, (, ), +, -, *, /, .}` and then delegates
parsing and evaluation to the host engine via `new Function('x', ...)`,
returning `null` on a thrown error or a `NaN` result.  The host engine's
parsing and arithmetic evaluation of such whitelisted strings is modelled
below by a tokenizer and recursive-descent parser for the grammar
`number | x | (expr) | (+|-) expr | expr (+|-|*|/) expr` with JS
precedence, together with `JsNum` arithmetic.  Identifier runs other than
a single `x` (a `ReferenceError` at run time), adjacent `++`/`--`
(increment/decrement tokens, a `SyntaxError`), and malformed numbers are
parse failures here exactly as they make the host throw; comment syntax
`/* */`, property access, and float rounding are outside the model. -/

/-- Abstract syntax of the single-variable arithmetic formulas. -/
inductive AExp : Type where
  | lit (q : ℚ)
  | varX
  | neg (a : AExp)
  | add (a b : AExp)
  | sub (a b : AExp)
  | mul (a b : AExp)
  | divE (a b : AExp)
  deriving DecidableEq, Repr

/-- Evaluation of a formula at a value of `x`, in JS arithmetic. -/
def evalA : AExp → JsNum → JsNum
  | AExp.lit q, _ => num q
  | AExp.varX, x => x
  | AExp.neg a, x => jneg (evalA a x)
  | AExp.add a b, x => jadd (evalA a x) (evalA b x)
  | AExp.sub a b, x => jsub (evalA a x) (evalA b x)
  | AExp.mul a b, x => jmul (evalA a x) (evalA b x)
  | AExp.divE a b, x => jdiv (evalA a x) (evalA b x)

/-- Formula tokens. -/
inductive Tok : Type where
  | tnum (q : ℚ)
  | tx
  | tlp
  | trp
  | tplus
  | tminus
  | tstar
  | tslash
  deriving DecidableEq, Repr

/-- Value of a lexed number run (digits, optionally one dot, digits). -/
def numTokVal (run : List Char) : ℚ :=
  let ipart := run.takeWhile Char.isDigit
  let rest := run.dropWhile Char.isDigit
  intVal ipart +
    (if rest.headD ' ' = '.' then
      intVal (rest.tail) / (10 : ℚ) ^ (rest.tail).length
    else 0)

/-- Tokenizer for whitelisted formula strings.  `none` models a host
`SyntaxError` (malformed number run, adjacent `++`/`--`) or a run-time
`ReferenceError` (an identifier other than the single variable `x`). -/
def tokenize : List Char → Option (List Tok)
  | [] => some []
  | c :: cs =>
    if isWS c then tokenize cs
    else if c = '(' then (tokenize cs).map (Tok.tlp :: ·)
    else if c = ')' then (tokenize cs).map (Tok.trp :: ·)
    else if c = '+' then
      if cs.headD ' ' = '+' then none else (tokenize cs).map (Tok.tplus :: ·)
    else if c = '-' then
      if cs.headD ' ' = '-' then none else (tokenize cs).map (Tok.tminus :: ·)
    else if c = '*' then (tokenize cs).map (Tok.tstar :: ·)
    else if c = '/' then (tokenize cs).map (Tok.tslash :: ·)
    else if c = 'x' then
      if cs.headD ' ' = 'x' then none else (tokenize cs).map (Tok.tx :: ·)
    else if c.isDigit ∨ c = '.' then
      let run := c :: cs.takeWhile (fun d => d.isDigit || d = '.')
      let rest := cs.dropWhile (fun d => d.isDigit || d = '.')
      if (run.filter (fun d => d = '.')).length ≤ 1 ∧ run.any Char.isDigit then
        (tokenize rest).map (Tok.tnum (numTokVal run) :: ·)
      else none
    else none
  termination_by l => l.length
  decreasing_by
    all_goals simp_wf
    exact Nat.lt_succ_of_le (List.dropWhile_sublist _).length_le

mutual

/-- Additive level of the recursive-descent parser (fuel-indexed). -/
def parseE (fuel : Nat) (ts : List Tok) : Option (AExp × List Tok) :=
  match fuel with
  | 0 => none
  | fuel + 1 =>
    match parseM fuel ts with
    | none => none
    | some (a, ts) => parseEloop fuel a ts

/-- Left-associative chain of `+`/`-`. -/
def parseEloop (fuel : Nat) (a : AExp) (ts : List Tok) :
    Option (AExp × List Tok) :=
  match fuel with
  | 0 => none
  | fuel + 1 =>
    match ts with
    | Tok.tplus :: ts =>
      match parseM fuel ts with
      | none => none
      | some (b, ts) => parseEloop fuel (AExp.add a b) ts
    | Tok.tminus :: ts =>
      match parseM fuel ts with
      | none => none
      | some (b, ts) => parseEloop fuel (AExp.sub a b) ts
    | _ => some (a, ts)

/-- Multiplicative level. -/
def parseM (fuel : Nat) (ts : List Tok) : Option (AExp × List Tok) :=
  match fuel with
  | 0 => none
  | fuel + 1 =>
    match parseU fuel ts with
    | none => none
    | some (a, ts) => parseMloop fuel a ts

/-- Left-associative chain of `*`/`/`. -/
def parseMloop (fuel : Nat) (a : AExp) (ts : List Tok) :
    Option (AExp × List Tok) :=
  match fuel with
  | 0 => none
  | fuel + 1 =>
    match ts with
    | Tok.tstar :: ts =>
      match parseU fuel ts with
      | none => none
      | some (b, ts) => parseMloop fuel (AExp.mul a b) ts
    | Tok.tslash :: ts =>
      match parseU fuel ts with
      | none => none
      | some (b, ts) => parseMloop fuel (AExp.divE a b) ts
    | _ => some (a, ts)

/-- Unary level: JS unary `+` is the identity on numbers, unary `-`
negates. -/
def parseU (fuel : Nat) (ts : List Tok) : Option (AExp × List Tok) :=
  match fuel with
  | 0 => none
  | fuel + 1 =>
    match ts with
    | Tok.tplus :: ts => parseU fuel ts
    | Tok.tminus :: ts =>
      match parseU fuel ts with
      | none => none
      | some (b, ts) => some (AExp.neg b, ts)
    | _ => parseP fuel ts

/-- Primary level: literal, variable, or parenthesised expression. -/
def parseP (fuel : Nat) (ts : List Tok) : Option (AExp × List Tok) :=
  match fuel with
  | 0 => none
  | fuel + 1 =>
    match ts with
    | Tok.tnum q :: ts => some (AExp.lit q, ts)
    | Tok.tx :: ts => some (AExp.varX, ts)
    | Tok.tlp :: ts =>
      match parseE fuel ts with
      | some (a, Tok.trp :: ts) => some (a, ts)
      | _ => none
    | _ => none

end

/-- Parse a complete token list (the fuel bound is generous: the parser
consumes a token at least every five recursive steps). -/
def parseToks (ts : List Tok) : Option AExp :=
  match parseE (5 * ts.length + 5) ts with
  | some (a, []) => some a
  | _ => none

/-- Parse a formula string: tokenize then parse; `none` models any host
`SyntaxError` / run-time throw. -/
def parseFormula (s : String) : Option AExp :=
  (tokenize s.toList).bind parseToks

/-- The character whitelist test `/[^x\d\s()+\-*\/.]/` of `safeEval`:
`true` when some character falls outside the whitelist. -/
def hasBadChar (s : String) : Bool :=
  s.toList.any (fun c =>
    !(c = 'x' || c.isDigit || isWS c || c = '(' || c = ')' || c = '+' ||
      c = '-' || c = '*' || c = '/' || c = '.'))

/-- Shallow embedding of `safeEval` (src/App.js, lines 113-124): reject
strings with non-whitelisted characters, parse and evaluate, return the
failure signal (`null`, here `none`) on a parse error or a `NaN` result. -/
def safeEval (expr : String) (x : JsNum) : Option JsNum :=
  if hasBadChar expr then none
  else
    match parseFormula expr with
    | none => none
    | some e =>
      let r := evalA e x
      if r.isNaN then none else some r

/-!
The utility-function evaluator and the two scoring code paths.
-/

/-- A utility-function record, exactly the shape stored per criterion id in
`utilityFunctions`: two string discriminators (`criterionType` is
`"qualitative"` or `"quantitative"`; `mode` is `"formula"` or `"table"`)
plus the data for every mode. -/
structure UtilityFunc : Type where
  criterionType : String
  mode : String
  formulaString : String
  points : List Point
  qualitativeLevels : List Level
  deriving DecidableEq, Repr

/-- A criterion or option: `{id, content}`. -/
structure Item : Type where
  id : String
  content : String
  deriving DecidableEq, Repr

/-- Property lookup on a JS object modelled as an association list
(objects have no duplicate keys; first match). -/
def lookupA {α : Type} (k : String) : List (String × α) → Option α
  | [] => none
  | (k', v) :: l => if k' = k then some v else lookupA k l

/-- The qualitative-level test `l.label === selectedLabel`: a string
compares equal only to the same string (never to `undefined` or a
number). -/
def labelMatches (raw : JsVal) (l : Level) : Bool :=
  match raw with
  | JsVal.str s => l.label = s
  | _ => false

/-- The final clamp `Math.max(0, Math.min(100, utility))`. -/
def clampUtility (u : JsNum) : JsNum := jmax (num 0) (jmin (num 100) u)

/-- The utility dispatch body for a present function record: qualitative
label lookup, or `parseFloat` followed by the formula / table branches
(the source binds `parseFloat(...)` to a local `value`; it is written
inline here, same value). -/
def computeUtilityBody (f : UtilityFunc) (raw : JsVal) : JsNum :=
  if f.criterionType = "qualitative" then
    match f.qualitativeLevels.find? (labelMatches raw) with
    | some l => num l.utility
    | none => num 0
  else if (parseFloatVal raw).isNaN then num 0
  else if f.mode = "formula" ∧ f.formulaString ≠ "" then
    match safeEval f.formulaString (parseFloatVal raw) with
    | some r => r
    | none => num 0
  else if f.mode = "table" ∧ f.points ≠ [] then
    interpolate (parseFloatVal raw) f.points
  else num 0

/-- The per-cell utility dispatch shared verbatim by `calculateScores`
(src/App.js, lines 710-732) and `calculateOptionValues` (lines 179-200):
the two code paths differ only in where the raw value comes from.
A missing function, an unmatched qualitative label, an unparseable raw
value, an evaluator failure, or an empty/unused mode all leave the
utility at 0; the result is clamped to [0, 100]. -/
def computeUtility (fOpt : Option UtilityFunc) (raw : JsVal) : JsNum :=
  clampUtility
    (match fOpt with
    | none => num 0
    | some f => computeUtilityBody f raw)

/-- JS string property access `s[k]`, as performed by the expression
`option.id[criterion.id]`: the own properties of a string are its
characters at canonical numeric indices and `length` (a number); any
other key yields `undefined` (inherited `String.prototype` methods are
functions, which behave like `undefined` in both the `parseFloat` and the
label-comparison sink, so they are modelled as `undefined`). -/
def idLookup (s : String) (k : String) : JsVal :=
  if k = "length" then JsVal.numv ((s.length : ℕ) : ℚ)
  else
    match k.toNat? with
    | some i =>
      if Nat.repr i = k ∧ i < s.length then
        JsVal.str (String.singleton (s.toList.getD i ' '))
      else JsVal.undef
    | none => JsVal.undef

/-- Shallow embedding of `calculateOptionValues` (src/App.js, lines
174-204).  Note the source reads its raw value from
`option.id[criterion.id]` — indexing the option's id string by the
criterion id — and takes no grid of entered values at all. -/
def calculateOptionValues (options criteria : List Item)
    (utilityFunctions : List (String × UtilityFunc)) :
    List (String × List (String × JsNum)) :=
  options.map (fun option =>
    (option.id, criteria.map (fun criterion =>
      (criterion.id,
        computeUtility (lookupA criterion.id utilityFunctions)
          (idLookup option.id criterion.id)))))

/-- The entered raw-value grid `optionValues`, keyed by option id then
criterion id. -/
def RawGrid : Type := List (String × List (String × JsVal))

/-- The optional-chain read `optionValues[option.id]?.[criterion.id]`
(missing row or missing cell gives `undefined`). -/
def rawGet (g : RawGrid) (oid cid : String) : JsVal :=
  match lookupA oid g with
  | none => JsVal.undef
  | some row =>
    match lookupA cid row with
    | none => JsVal.undef
    | some v => v

/-- Shallow embedding of Step4's `calculateScores` (src/App.js, lines
705-736), which reads the entered raw value
`optionValues[option.id]?.[criterion.id]` and otherwise performs the same
dispatch as `calculateOptionValues`. -/
def calculateScores (options criteria : List Item) (optionValues : RawGrid)
    (utilityFunctions : List (String × UtilityFunc)) :
    List (String × List (String × JsNum)) :=
  options.map (fun option =>
    (option.id, criteria.map (fun criterion =>
      (criterion.id,
        computeUtility (lookupA criterion.id utilityFunctions)
          (rawGet optionValues option.id criterion.id)))))

/-- A final score `{optionId, score}`. -/
structure FinalScore : Type where
  optionId : String
  score : JsNum
  deriving DecidableEq, Repr

/-- The two-level utility-grid read
`optionValues[option.id]?.[criterion.id]` used in `calculateFinalScores`. -/
def cellGet (g : List (String × List (String × JsNum))) (oid cid : String) :
    Option JsNum :=
  (lookupA oid g).bind (lookupA cid)

/-- The defaulting `v || 0`: `undefined`, `NaN` (and `0` itself) are falsy
and give `0`; every other number is returned unchanged. -/
def orZero : Option JsNum → JsNum
  | some JsNum.nan => num 0
  | some v => v
  | none => num 0

/-- Shallow embedding of `calculateFinalScores` (src/App.js, lines
206-218): `score(option) = Σ_index utility * weight` with missing utility
cells and missing weights defaulted to 0 by `|| 0`. -/
def calculateFinalScores (options criteria : List Item)
    (weights : List JsNum)
    (optionValues : List (String × List (String × JsNum))) :
    List FinalScore :=
  options.map (fun option =>
    { optionId := option.id
      score := criteria.enum.foldl (fun acc p =>
        jadd acc (jmul (orZero (cellGet optionValues option.id p.2.id))
          (orZero weights[p.1]?))) (num 0) })

/-- An option enriched with its final score (`{...opt, score}`). -/
structure ScoredOption : Type where
  id : String
  content : String
  score : JsNum
  deriving DecidableEq, Repr

/-- Comparator predicate of `.sort((a, b) => b.score - a.score)`: `a` may
stay in front of `b` iff the comparator is not positive, i.e. iff
`a.score < b.score` is false (also covering the `NaN`-comparator case,
which the sort treats as 0). -/
def optLe (a b : ScoredOption) : Bool := !(jlt a.score b.score)

/-- The enrichment step of App's `sortedOptions` memo: each option is
paired with its score from the final-scores list
(`finalScores.find(s => s.optionId === opt.id)?.score || 0`). -/
def enrichOptions (options : List Item) (finalScores : List FinalScore) :
    List ScoredOption :=
  options.map (fun o =>
    { id := o.id, content := o.content
      score := orZero ((finalScores.find? (fun s => s.optionId = o.id)).map
        FinalScore.score) })

/-- Shallow embedding of App's `sortedOptions` memo (src/App.js, lines
1097-1104): enrich each option with its score and stable-sort by score
descending. -/
def sortedOptions (options : List Item) (finalScores : List FinalScore) :
    List ScoredOption :=
  if finalScores.length = 0 then []
  else sSort optLe (enrichOptions options finalScores)

/-!
The weight engine and consistency checker.
-/

/-- Matrix element access `m[i][j]`; out-of-range access yields
`undefined`, which behaves exactly like `NaN` in every sink it reaches
here (arithmetic, `=== 0`, `<`), so it is modelled as `NaN`.  The claims
below quantify over square matrices, for which access is always in
range. -/
def mget (m : List (List JsNum)) (i j : Nat) : JsNum :=
  match m[i]? with
  | none => JsNum.nan
  | some row =>
    match row[j]? with
    | none => JsNum.nan
    | some v => v

/-- Column sum `Σ_i m[i][j]` over `i < n`, folded in loop order. -/
def colSum (m : List (List JsNum)) (n j : Nat) : JsNum :=
  ((List.range n).map (fun i => mget m i j)).foldl jadd (num 0)

/-- Shallow embedding of `normalizeMatrix` (src/App.js, lines 155-172):
every entry is divided by its column sum, with no zero-sum guard. -/
def normalizeMatrix (m : List (List JsNum)) : List (List JsNum) :=
  (List.range m.length).map (fun i =>
    (List.range m.length).map (fun j =>
      jdiv (mget m i j) (colSum m m.length j)))

/-- Shallow embedding of `calculateWeights` (src/App.js, lines 37-67):
empty matrix gives the empty vector; otherwise each column with a nonzero
sum is normalized by it (`if (columnSums[j] === 0) continue` skips
zero-sum columns), and weight `i` is the mean of row `i`. -/
def calculateWeights (m : List (List JsNum)) : List JsNum :=
  if m.length = 0 then []
  else
    let n := m.length
    (List.range n).map (fun i =>
      jdiv
        (((List.range n).map (fun j =>
          if jeq (colSum m n j) (num 0) then mget m i j
          else jdiv (mget m i j) (colSum m n j))).foldl jadd (num 0))
        (num (n : ℚ)))

/-- A consistency result `{cr, isConsistent}`. -/
structure ConsistencyResult : Type where
  cr : JsNum
  isConsistent : Bool
  deriving DecidableEq, Repr

/-- Saaty's random-index table for n = 1..10 (`riMap` in the source). -/
def riList : List ℚ := [0, 0, 0.58, 0.9, 1.12, 1.24, 1.32, 1.41, 1.45, 1.49]

/-- Weight access `weights[j]` (`undefined`, i.e. `NaN`-like, when out of
range). -/
def wget (weights : List JsNum) (j : Nat) : JsNum :=
  match weights[j]? with
  | none => JsNum.nan
  | some w => w

/-- The random-index lookup `riMap[numCriteria-1] || 1.49` (`0` and
`undefined` are falsy). -/
def riOf (n : Nat) : ℚ :=
  match riList[n - 1]? with
  | some v => if v = 0 then 1.49 else v
  | none => 1.49

/-- The weighted-sum entry `weightedSumVector[i] = Σ_j m[i][j] * w[j]` of
`calculateConsistency`. -/
def consWs (m : List (List JsNum)) (weights : List JsNum) (n i : Nat) :
    JsNum :=
  ((List.range n).map (fun j => jmul (mget m i j) (wget weights j))).foldl
    jadd (num 0)

/-- The consistency-vector entry `consistencyVector[i]`: left 0 when
`weights[i] !== 0` fails, otherwise `ws[i] / weights[i]`. -/
def consCv (m : List (List JsNum)) (weights : List JsNum) (n i : Nat) :
    JsNum :=
  if jeq (wget weights i) (num 0) then num 0
  else jdiv (consWs m weights n i) (wget weights i)

/-- Shallow embedding of `calculateConsistency` (src/App.js, lines
75-105): trivial result for n ≤ 2; otherwise the weighted-sum /
consistency-vector computation, `riMap[n-1] || 1.49`, `ri === 0 ? 0 :
ci/ri`, and the strict threshold `cr < 0.1`. -/
def calculateConsistency (m : List (List JsNum)) (weights : List JsNum) :
    ConsistencyResult :=
  let n := m.length
  if n ≤ 2 then { cr := num 0, isConsistent := true }
  else
    let lambdaMax :=
      jdiv (((List.range n).map (consCv m weights n)).foldl jadd (num 0))
        (num (n : ℚ))
    let ci := jdiv (jsub lambdaMax (num (n : ℚ))) (num ((n : ℚ) - 1))
    let cr := if riOf n = 0 then num 0 else jdiv ci (num (riOf n))
    { cr := cr, isConsistent := jlt cr (num 0.1) }

/-- Shallow embedding of `checkConsistency` (src/App.js, lines 220-223):
the weights fed to the consistency check are computed from the
pre-normalized matrix, exactly as in `App`'s `useEffect`, `finalScores`
memo and `reportData`. -/
def checkConsistency (m : List (List JsNum)) : ConsistencyResult :=
  calculateConsistency m (calculateWeights (normalizeMatrix m))

/-- Lift a matrix of (finite) state values into the JS-number domain. -/
def liftMatrix (m : List (List ℚ)) : List (List JsNum) :=
  m.map (fun row => row.map JsNum.num)

/-- Shallow embedding of `handleComparisonChange` (src/App.js, lines
449-454): copy the matrix, set entry (i, j) to the new value and entry
(j, i) to its reciprocal.  The state matrix holds finite numbers, so it
is modelled over ℚ. -/
def handleComparisonChange (m : List (List ℚ)) (i j : Nat) (v : ℚ) :
    List (List ℚ) :=
  let m1 := m.set i ((m.getD i []).set j v)
  m1.set j ((m1.getD j []).set i (1 / v))

/-!
Specification-side definitions: rational-arithmetic formulations of the
algorithms, written from the spec's wording, used to state the claims
against the embedded code.
-/

/-- Entry (i, j) of a finite (state-level) matrix. -/
def qget (m : List (List ℚ)) (i j : Nat) : ℚ := (m.getD i []).getD j 0

/-- An n×n matrix of state values. -/
def IsSquare (m : List (List ℚ)) (n : Nat) : Prop :=
  m.length = n ∧ ∀ row ∈ m, row.length = n

/-- Column sum `Σ_i m[i][j]` in exact rational arithmetic. -/
def colSumQ (m : List (List ℚ)) (n j : Nat) : ℚ :=
  ((List.range n).map (fun i => qget m i j)).sum

/-- The weight formula as the spec words it for `calculateWeights`: each
column with nonzero sum is normalized by it, a zero-sum column is left
unnormalized, and weight `i` is the arithmetic mean of row `i` of the
resulting matrix. -/
def specWeightsQ (m : List (List ℚ)) (n : Nat) : List ℚ :=
  (List.range n).map (fun i =>
    (((List.range n).map (fun j =>
      if colSumQ m n j = 0 then qget m i j
      else qget m i j / colSumQ m n j)).sum) / (n : ℚ))

/-- The reciprocity and unit-diagonal invariants of the pairwise matrix
(spec §3 / §8). -/
def IsReciprocal (m : List (List ℚ)) (n : Nat) : Prop :=
  IsSquare m n ∧
    (∀ i < n, qget m i i = 1) ∧
    (∀ i < n, ∀ j < n, i ≠ j → qget m i j = 1 / qget m j i)

/-- The spec's tagged-variant view of a utility function (spec §3). -/
inductive UFVariant : Type where
  | qual (levels : List Level)
  | quantFormula (formula : String)
  | quantTable (points : List Point)
  deriving DecidableEq, Repr

/-- The utility evaluation as the claim words it: qualitative functions
look the raw label up among the levels (0 when no label matches);
quantitative functions parse the raw value (0 if not parseable) and
either evaluate the formula (0 on evaluator failure) or interpolate over
the points (0 if the point set is empty); all three branches clamp to
[0, 100] at the end. -/
def specUtilityBody (uf : UFVariant) (raw : JsVal) : JsNum :=
  match uf with
  | UFVariant.qual levels =>
    match levels.find? (labelMatches raw) with
    | some l => num l.utility
    | none => num 0
  | UFVariant.quantFormula f =>
    if (parseFloatVal raw).isNaN then num 0
    else
      match safeEval f (parseFloatVal raw) with
      | some r => r
      | none => num 0
  | UFVariant.quantTable pts =>
    if (parseFloatVal raw).isNaN then num 0
    else if pts = [] then num 0
    else interpolate (parseFloatVal raw) pts

/-- Clamped spec utility (see `specUtilityBody`). -/
def specUtility (uf : UFVariant) (raw : JsVal) : JsNum :=
  clampUtility (specUtilityBody uf raw)

/-- Whether `k` is an own string property of `s` that yields a value:
a canonical numeric character index into `s`, or the `length` property.
The claim's hypothesis covers only the former. -/
def isStringProp (s k : String) : Prop :=
  k = "length" ∨ ∃ i < s.length, Nat.repr i = k

/-- A utility grid of finite (state-level) values. -/
def liftGrid (grid : List (String × List (String × ℚ))) :
    List (String × List (String × JsNum)) :=
  grid.map (fun r => (r.1, r.2.map (fun c => (c.1, num c.2))))

/-- The claim's reading of a utility-grid cell: the stored value, with a
missing entry treated as 0. -/
def qcell (grid : List (String × List (String × ℚ))) (oid cid : String) :
    ℚ :=
  match (lookupA oid grid).bind (lookupA cid) with
  | none => 0
  | some q => q

/-- The finite value of a JS number (0 for the special values; used only
under finiteness hypotheses). -/
def toQ : JsNum → ℚ
  | num q => q
  | _ => 0

/-- The random index as the claim words it: the fixed table indexed
1-based by n, with 1.49 used for every n > 10. -/
def specRiQ (n : Nat) : ℚ := if n ≤ 10 then riList.getD (n - 1) 1.49 else 1.49

/-- The consistency ratio as the claim words it, in exact rational
arithmetic: `ws[i] = Σ_j m[i][j] * w[j]`, `cv[i] = ws[i]/w[i]` (left 0
when `w[i] = 0`), `lambdaMax = mean(cv)`, `CI = (lambdaMax - n)/(n - 1)`,
`CR = CI / RI`. -/
def specConsistencyQ (m : List (List ℚ)) (w : List ℚ) (n : Nat) : ℚ :=
  let ws := fun i => ∑ j ∈ Finset.range n, qget m i j * w.getD j 0
  let cv := fun i => if w.getD i 0 = 0 then 0 else ws i / w.getD i 0
  let lambdaMax := (∑ i ∈ Finset.range n, cv i) / (n : ℚ)
  ((lambdaMax - n) / ((n : ℚ) - 1)) / specRiQ n

/-!
Lemmas.  Everything from here on is proof material about the definitions
above, followed by the claim theorems.
-/

section StableSortLemmas


variable {α : Type} (le : α → α → Bool)

theorem sIns_perm (a : α) (l : List α) : List.Perm (sIns le a l) (a :: l) := by
  induction l with
  | nil => simp [sIns]
  | cons b l ih =>
      rw [sIns]
      by_cases h : le a b = true
      · rw [if_pos h]
      · rw [if_neg h]
        exact (ih.cons b).trans (List.Perm.swap a b l)

theorem sSort_perm (l : List α) : List.Perm (sSort le l) l := by
  induction l with
  | nil => simp [sSort]
  | cons a l ih => exact (sIns_perm le a (sSort le l)).trans (ih.cons a)

theorem sIns_pairwise (x : α) (l : List α)
    (htot : ∀ b ∈ l, le x b = true ∨ le b x = true)
    (htransA : ∀ b ∈ l, ∀ c ∈ l, le x b = true → le b c = true → le x c = true)
    (htransB : ∀ b ∈ l, ∀ c ∈ l, le b x = true → le x c = true → le b c = true)
    (hl : l.Pairwise (fun p q => le p q = true)) :
    (sIns le x l).Pairwise (fun p q => le p q = true) := by
  induction l with
  | nil => simp [sIns]
  | cons b l ih =>
      rw [List.pairwise_cons] at hl
      obtain ⟨hb, hl'⟩ := hl
      rw [sIns]
      by_cases h : le x b = true
      · rw [if_pos h]
        refine List.Pairwise.cons ?_ (List.pairwise_cons.2 ⟨hb, hl'⟩)
        intro c hc
        rcases List.mem_cons.1 hc with rfl | hc
        · exact h
        · exact htransA b (by simp) c (by simp [hc]) h (hb c hc)
      · rw [if_neg h]
        refine List.Pairwise.cons ?_ ?_
        · intro c hc
          have hmem : c ∈ x :: l := (sIns_perm le x l).mem_iff.1 hc
          rcases List.mem_cons.1 hmem with rfl | hc'
          · rcases htot b (by simp) with h' | h'
            · exact absurd h' h
            · exact h'
          · exact hb c hc'
        · exact ih (fun c hc => htot c (by simp [hc]))
            (fun c hc d hd => htransA c (by simp [hc]) d (by simp [hd]))
            (fun c hc d hd => htransB c (by simp [hc]) d (by simp [hd])) hl'

theorem sSort_pairwise (l : List α)
    (htot : ∀ a ∈ l, ∀ b ∈ l, le a b = true ∨ le b a = true)
    (htrans : ∀ a ∈ l, ∀ b ∈ l, ∀ c ∈ l,
      le a b = true → le b c = true → le a c = true) :
    (sSort le l).Pairwise (fun p q => le p q = true) := by
  induction l with
  | nil => simp [sSort]
  | cons a l ih =>
      have hsub : ∀ b ∈ sSort le l, b ∈ l :=
        fun b hb => (sSort_perm le l).mem_iff.1 hb
      rw [sSort]
      refine sIns_pairwise le a (sSort le l) ?_ ?_ ?_ ?_
      · intro b hb
        exact htot a (by simp) b (by simp [hsub b hb])
      · intro b hb c hc
        exact htrans a (by simp) b (by simp [hsub b hb]) c (by simp [hsub c hc])
      · intro b hb c hc
        exact htrans b (by simp [hsub b hb]) a (by simp) c (by simp [hsub c hc])
      · exact ih (fun p hp q hq => htot p (by simp [hp]) q (by simp [hq]))
          (fun p hp q hq r hr =>
            htrans p (by simp [hp]) q (by simp [hq]) r (by simp [hr]))

/-- Stability, phrased without position tags: for any key value `c`, the
subsequence of elements whose key equals `c` is unchanged by the sort.
The hypothesis states that elements with equal keys always compare "may
stay in front" (comparator ≤ 0), which holds for key-based comparators. -/
theorem sIns_filter {β : Type} [DecidableEq β] (k : α → β)
    (hk : ∀ a b, k a = k b → le a b = true)
    (a : α) (l : List α) (c : β) :
    (sIns le a l).filter (fun x => k x = c) =
      (a :: l).filter (fun x => k x = c) := by
  induction l with
  | nil => simp [sIns]
  | cons b l ih =>
      rw [sIns]
      by_cases h : le a b = true
      · rw [if_pos h]
      · rw [if_neg h]
        by_cases hkb : k b = c
        · have hka : ¬ k a = c := fun hka =>
            h (hk a b (hka.trans hkb.symm))
          rw [List.filter_cons_of_pos (by simpa using hkb), ih,
            List.filter_cons_of_neg (by simpa using hka),
            List.filter_cons_of_neg (by simpa using hka),
            List.filter_cons_of_pos (by simpa using hkb)]
        · rw [List.filter_cons_of_neg (by simpa using hkb), ih,
            List.filter_cons]
          by_cases hka : k a = c
          · rw [if_pos (by simpa using hka), List.filter_cons_of_pos
              (by simpa using hka), List.filter_cons_of_neg (by simpa using hkb)]
          · rw [if_neg (by simpa using hka), List.filter_cons_of_neg
              (by simpa using hka), List.filter_cons_of_neg (by simpa using hkb)]

theorem sSort_filter {β : Type} [DecidableEq β] (k : α → β)
    (hk : ∀ a b, k a = k b → le a b = true) (l : List α) (c : β) :
    (sSort le l).filter (fun x => k x = c) = l.filter (fun x => k x = c) := by
  induction l with
  | nil => simp [sSort]
  | cons a l ih =>
      rw [sSort, sIns_filter le k hk a (sSort le l) c]
      simp only [List.filter_cons]
      by_cases hka : k a = c <;> simp [hka, ih]

end StableSortLemmas

/-- Folding JS addition over a list of finite numbers is exact rational
summation. -/
theorem foldl_jadd_num (l : List ℚ) (a : ℚ) :
    (l.map JsNum.num).foldl jadd (num a) = num (a + l.sum) := by
  induction l generalizing a with
  | nil => simp
  | cons q l ih =>
      simp only [List.map_cons, List.foldl_cons, List.sum_cons, jadd, ih]
      ring_nf

theorem jadd_num (a b : ℚ) : jadd (num a) (num b) = num (a + b) := rfl

theorem jneg_num (a : ℚ) : jneg (num a) = num (-a) := rfl

theorem jsub_num (a b : ℚ) : jsub (num a) (num b) = num (a - b) := by
  rw [jsub, jneg_num, jadd_num, sub_eq_add_neg]

theorem jmul_num (a b : ℚ) : jmul (num a) (num b) = num (a * b) := rfl

theorem jdiv_num (a b : ℚ) (h : b ≠ 0) :
    jdiv (num a) (num b) = num (a / b) := by
  rw [jdiv, if_neg h]

theorem jeq_num (a b : ℚ) : jeq (num a) (num b) = decide (a = b) := rfl

theorem jlt_num (a b : ℚ) : jlt (num a) (num b) = decide (a < b) := rfl

theorem jle_num (a b : ℚ) : jle (num a) (num b) = decide (a ≤ b) := rfl

/-- Sums over `List.range` are `Finset.range` sums. -/
theorem sum_range_list (f : ℕ → ℚ) (n : ℕ) :
    ((List.range n).map f).sum = ∑ i ∈ Finset.range n, f i := by
  induction n with
  | zero => simp
  | succ n ih => simp [List.range_succ, Finset.sum_range_succ, ih]

theorem liftMatrix_length (m : List (List ℚ)) :
    (liftMatrix m).length = m.length := by
  simp [liftMatrix]

/-- In-range access to a lifted matrix is the lifted rational entry. -/
theorem mget_lift (m : List (List ℚ)) (n i j : Nat) (hsq : IsSquare m n)
    (hi : i < n) (hj : j < n) :
    mget (liftMatrix m) i j = num (qget m i j) := by
  obtain ⟨hlen, hrow⟩ := hsq
  have hi' : i < m.length := hlen ▸ hi
  have hrowget : m[i]? = some m[i] := List.getElem?_eq_getElem hi'
  have hrl : m[i].length = n := hrow _ (List.getElem_mem hi')
  have hj' : j < m[i].length := hrl ▸ hj
  have hvget : m[i][j]? = some m[i][j] := List.getElem?_eq_getElem hj'
  have h1 : (liftMatrix m)[i]? = some (m[i].map num) := by
    rw [liftMatrix, List.getElem?_map, hrowget]
    rfl
  have h2 : (m[i].map num)[j]? = some (num m[i][j]) := by
    rw [List.getElem?_map, hvget]
    rfl
  have hq : qget m i j = m[i][j] := by
    simp only [qget, List.getD, List.get?_eq_getElem?, hrowget, hvget,
      Option.getD_some]
  simp [mget, h1, h2, hq]

/-- Column sums of a lifted square matrix are exact rational column sums. -/
theorem colSum_lift (m : List (List ℚ)) (n j : Nat) (hsq : IsSquare m n)
    (hj : j < n) :
    colSum (liftMatrix m) n j = num (colSumQ m n j) := by
  rw [colSum, colSumQ]
  have hmap : (List.range n).map (fun i => mget (liftMatrix m) i j) =
      ((List.range n).map (fun i => qget m i j)).map num := by
    rw [List.map_map]
    refine List.map_congr_left ?_
    intro i hi
    exact mget_lift m n i j hsq (List.mem_range.1 hi) hj
  rw [hmap, foldl_jadd_num, zero_add]

/-- On a lifted square matrix, `calculateWeights` computes exactly the
spec's rational weight formula (in particular it is always finite). -/
theorem calculateWeights_lift (m : List (List ℚ)) (n : Nat)
    (hsq : IsSquare m n) (hn : 1 ≤ n) :
    calculateWeights (liftMatrix m) = (specWeightsQ m n).map num := by
  have hlen : (liftMatrix m).length = n := by
    rw [liftMatrix_length]; exact hsq.1
  rw [calculateWeights, if_neg (by omega : ¬ (liftMatrix m).length = 0)]
  rw [specWeightsQ, List.map_map]
  rw [hlen]
  refine List.map_congr_left ?_
  intro i hi
  have hi' : i < n := List.mem_range.1 hi
  have hinner : (List.range n).map (fun j =>
      if jeq (colSum (liftMatrix m) n j) (num 0) = true then
        mget (liftMatrix m) i j
      else jdiv (mget (liftMatrix m) i j) (colSum (liftMatrix m) n j)) =
      ((List.range n).map (fun j =>
        if colSumQ m n j = 0 then qget m i j
        else qget m i j / colSumQ m n j)).map num := by
    rw [List.map_map]
    refine List.map_congr_left ?_
    intro j hj
    have hj' : j < n := List.mem_range.1 hj
    rw [colSum_lift m n j hsq hj', mget_lift m n i j hsq hi' hj']
    by_cases h0 : colSumQ m n j = 0
    · simp [jeq, h0]
    · simp [jeq, jdiv, h0]
  rw [hinner, foldl_jadd_num, zero_add]
  rw [jdiv, if_neg (Nat.cast_ne_zero.2 (by omega : n ≠ 0) : ¬ (n : ℚ) = 0)]
  simp

theorem getD_set_same {α : Type} (l : List α) (i : Nat) (a d : α)
    (h : i < l.length) : (l.set i a).getD i d = a := by
  simp [List.getD, List.getElem?_set, h]

theorem getD_set_other {α : Type} (l : List α) (i p : Nat) (a d : α)
    (h : i ≠ p) : (l.set i a).getD p d = l.getD p d := by
  simp [List.getD, List.getElem?_set, h]

/-- Entry access on a matrix built by mapping over `List.range`. -/
theorem qget_mk (f : Nat → Nat → ℚ) (n i j : Nat) (hi : i < n) (hj : j < n) :
    qget ((List.range n).map (fun i => (List.range n).map (fun j => f i j)))
      i j = f i j := by
  simp [qget, List.getD, List.getElem?_map, List.getElem?_range, hi, hj]

/-- The column sum as a `Finset` sum. -/
theorem colSumQ_eq (m : List (List ℚ)) (n j : Nat) :
    colSumQ m n j = ∑ i ∈ Finset.range n, qget m i j := by
  rw [colSumQ, sum_range_list]

/-- The algebraic core of weight normalization: for positive entries all
column sums are positive and the spec's weights sum to exactly 1. -/
theorem specWeightsQ_sum (m : List (List ℚ)) (n : Nat) (hn : 1 ≤ n)
    (hpos : ∀ i < n, ∀ j < n, 0 < qget m i j) :
    (specWeightsQ m n).sum = 1 := by
  have hS : ∀ j < n, 0 < colSumQ m n j := by
    intro j hj
    rw [colSumQ_eq]
    exact Finset.sum_pos
      (fun i hi => hpos i (Finset.mem_range.1 hi) j hj)
      (Finset.nonempty_range_iff.2 (by omega))
  rw [specWeightsQ, sum_range_list]
  have hrow : ∀ i ∈ Finset.range n,
      (((List.range n).map (fun j =>
        if colSumQ m n j = 0 then qget m i j
        else qget m i j / colSumQ m n j)).sum) / (n : ℚ) =
      (∑ j ∈ Finset.range n, qget m i j / colSumQ m n j) / (n : ℚ) := by
    intro i _
    rw [sum_range_list]
    congr 1
    refine Finset.sum_congr rfl ?_
    intro j hj
    rw [if_neg (ne_of_gt (hS j (Finset.mem_range.1 hj)))]
  rw [Finset.sum_congr rfl hrow, ← Finset.sum_div, Finset.sum_comm]
  have hcol : ∀ j ∈ Finset.range n,
      (∑ i ∈ Finset.range n, qget m i j / colSumQ m n j) = 1 := by
    intro j hj
    rw [← Finset.sum_div, ← colSumQ_eq,
      div_self (ne_of_gt (hS j (Finset.mem_range.1 hj)))]
  rw [Finset.sum_congr rfl hcol]
  simp
  rw [div_self (Nat.cast_ne_zero.2 (by omega : n ≠ 0) : (n : ℚ) ≠ 0)]

/-- The rational normalized matrix (the spec's step (b) without a guard,
matching `normalizeMatrix`). -/
def normalizeQ (m : List (List ℚ)) (n : Nat) : List (List ℚ) :=
  (List.range n).map (fun i =>
    (List.range n).map (fun j => qget m i j / colSumQ m n j))

/-- On a square matrix with nonzero column sums, `normalizeMatrix` is the
lift of the rational normalization. -/
theorem normalizeMatrix_lift (m : List (List ℚ)) (n : Nat)
    (hsq : IsSquare m n) (hS : ∀ j < n, colSumQ m n j ≠ 0) :
    normalizeMatrix (liftMatrix m) = liftMatrix (normalizeQ m n) := by
  have hR : liftMatrix (normalizeQ m n) =
      (List.range n).map (fun i =>
        (List.range n).map (fun j => num (qget m i j / colSumQ m n j))) := by
    rw [normalizeQ, liftMatrix, List.map_map]
    refine List.map_congr_left (fun i _ => ?_)
    simp [Function.comp, List.map_map]
  rw [hR, normalizeMatrix, liftMatrix_length, hsq.1]
  refine List.map_congr_left (fun i hi => ?_)
  refine List.map_congr_left (fun j hj => ?_)
  have hi' : i < n := List.mem_range.1 hi
  have hj' : j < n := List.mem_range.1 hj
  rw [mget_lift m n i j hsq hi' hj', colSum_lift m n j hsq hj']
  rw [jdiv, if_neg (hS j hj')]

theorem normalizeQ_square (m : List (List ℚ)) (n : Nat) :
    IsSquare (normalizeQ m n) n := by
  constructor
  · simp [normalizeQ]
  · intro row hrow
    rw [normalizeQ] at hrow
    obtain ⟨i, _, rfl⟩ := List.mem_map.1 hrow
    simp

/-- Row access within bounds. -/
theorem rowLen (m : List (List ℚ)) (n : Nat) (hsq : IsSquare m n)
    (p : Nat) (hp : p < n) : (m.getD p []).length = n := by
  obtain ⟨hlen, hrow⟩ := hsq
  have hp' : p < m.length := hlen ▸ hp
  rw [List.getD, List.get?_eq_getElem?, List.getElem?_eq_getElem hp',
    Option.getD_some]
  exact hrow _ (List.getElem_mem hp')

/-- Characterization of the mutated matrix: entry (i, j) becomes `v`,
entry (j, i) becomes `1/v`, everything else is unchanged. -/
theorem qget_hcc (m : List (List ℚ)) (n i j : Nat) (v : ℚ)
    (hsq : IsSquare m n) (hi : i < n) (hj : j < n) (hij : i ≠ j)
    (p q : Nat) :
    qget (handleComparisonChange m i j v) p q =
      if p = i ∧ q = j then v
      else if p = j ∧ q = i then 1 / v
      else qget m p q := by
  have hleni : i < m.length := hsq.1 ▸ hi
  have hlenj : j < m.length := hsq.1 ▸ hj
  have hrowi : (m.getD i []).length = n := rowLen m n hsq i hi
  have hrowj : (m.getD j []).length = n := rowLen m n hsq j hj
  rw [handleComparisonChange]
  have hm1row : ((m.set i ((m.getD i []).set j v)).getD j []) = m.getD j [] :=
    getD_set_other _ i j _ _ hij
  by_cases hpj : p = j
  · subst hpj
    rw [qget, getD_set_same _ p _ _
      (by rw [List.length_set]; exact hlenj), hm1row]
    by_cases hqi : q = i
    · subst hqi
      rw [getD_set_same _ q _ _ (by rw [hrowj]; exact hi)]
      rw [if_neg (by rintro ⟨h, -⟩; exact hij h.symm), if_pos ⟨rfl, rfl⟩]
    · rw [getD_set_other _ i q _ _ (fun h => hqi h.symm)]
      rw [if_neg (by rintro ⟨h, -⟩; exact hij h.symm),
        if_neg (by rintro ⟨-, h⟩; exact hqi h)]
      rfl
  · rw [qget, getD_set_other _ j p _ _ (fun h => hpj h.symm)]
    by_cases hpi : p = i
    · subst hpi
      rw [getD_set_same _ p _ _ hleni]
      by_cases hqj : q = j
      · subst hqj
        rw [getD_set_same _ q _ _ (by rw [hrowi]; exact hj)]
        rw [if_pos ⟨rfl, rfl⟩]
      · rw [getD_set_other _ j q _ _ (fun h => hqj h.symm)]
        rw [if_neg (by rintro ⟨-, h⟩; exact hqj h),
          if_neg (by rintro ⟨h, -⟩; exact hpj h)]
        rfl
    · rw [getD_set_other _ i p _ _ (fun h => hpi h.symm)]
      rw [if_neg (by rintro ⟨h, -⟩; exact hpi h),
        if_neg (by rintro ⟨h, -⟩; exact hpj h)]
      rfl

/-!
Claim theorems.
-/

/-- C10: after a judgment change that sets entry (i, j), i ≠ j, of a
matrix satisfying the invariants to a new positive value v, the matrix
again satisfies `matrix[i][j] = 1 / matrix[j][i]` for all i ≠ j and
`matrix[i][i] = 1` for all i, the two mutated entries hold `v` and `1/v`,
and all other entries are unchanged.  (State values are exact rationals;
float rounding of `1/newValue` is outside the model.) -/
theorem claim10_mutator_reciprocity (m : List (List ℚ)) (n i j : Nat)
    (v : ℚ) (hrec : IsReciprocal m n) (hi : i < n) (hj : j < n)
    (hij : i ≠ j) (_hv : 0 < v) :
    IsReciprocal (handleComparisonChange m i j v) n ∧
    qget (handleComparisonChange m i j v) i j = v ∧
    qget (handleComparisonChange m i j v) j i = 1 / v ∧
    (∀ p < n, ∀ q < n, ¬(p = i ∧ q = j) → ¬(p = j ∧ q = i) →
      qget (handleComparisonChange m i j v) p q = qget m p q) := by
  obtain ⟨hsq, hdiag, hrecip⟩ := hrec
  have hq := qget_hcc m n i j v hsq hi hj hij
  have hrowi : (m.getD i []).length = n := rowLen m n hsq i hi
  have hrowj : (m.getD j []).length = n := rowLen m n hsq j hj
  have hm1row : ((m.set i ((m.getD i []).set j v)).getD j []) = m.getD j [] :=
    getD_set_other _ i j _ _ hij
  have hsq' : IsSquare (handleComparisonChange m i j v) n := by
    constructor
    · rw [handleComparisonChange]
      simp [hsq.1]
    · intro row hmem
      rw [handleComparisonChange] at hmem
      rcases List.mem_or_eq_of_mem_set hmem with hmem1 | rfl
      · rcases List.mem_or_eq_of_mem_set hmem1 with hmem2 | rfl
        · exact hsq.2 _ hmem2
        · rw [List.length_set]
          exact hrowi
      · rw [List.length_set, hm1row]
        exact hrowj
  refine ⟨⟨hsq', ?_, ?_⟩, ?_, ?_, ?_⟩
  · intro p hp
    rw [hq p p, if_neg (by rintro ⟨rfl, rfl⟩; exact hij rfl),
      if_neg (by rintro ⟨rfl, rfl⟩; exact hij rfl)]
    exact hdiag p hp
  · intro p hp q hq' hpq
    rw [hq p q, hq q p]
    by_cases h1 : p = i ∧ q = j
    · obtain ⟨rfl, rfl⟩ := h1
      rw [if_pos ⟨rfl, rfl⟩, if_neg (by rintro ⟨rfl, -⟩; exact hij rfl),
        if_pos ⟨rfl, rfl⟩, one_div_one_div]
    · by_cases h2 : p = j ∧ q = i
      · obtain ⟨rfl, rfl⟩ := h2
        rw [if_neg h1, if_pos ⟨rfl, rfl⟩, if_pos ⟨rfl, rfl⟩]
      · rw [if_neg h1, if_neg h2,
          if_neg (by rintro ⟨rfl, rfl⟩; exact h2 ⟨rfl, rfl⟩),
          if_neg (by rintro ⟨rfl, rfl⟩; exact h1 ⟨rfl, rfl⟩)]
        exact hrecip p hp q hq' hpq
  · rw [hq i j, if_pos ⟨rfl, rfl⟩]
  · rw [hq j i, if_neg (by rintro ⟨rfl, -⟩; exact hij rfl),
      if_pos ⟨rfl, rfl⟩]
  · intro p hp q hq' h1 h2
    rw [hq p q, if_neg h1, if_neg h2]

/-- Witness for C10: mutating the neutral 2×2 matrix at (0, 1) with value
9 keeps the invariants and sets the two entries to 9 and 1/9. -/
theorem claim10_mutator_reciprocity_witness :
    IsReciprocal (handleComparisonChange [[1, 1], [1, 1]] 0 1 9) 2 ∧
    qget (handleComparisonChange [[1, 1], [1, 1]] 0 1 9) 0 1 = 9 ∧
    qget (handleComparisonChange [[1, 1], [1, 1]] 0 1 9) 1 0 = 1 / 9 ∧
    (∀ p < 2, ∀ q < 2, ¬(p = 0 ∧ q = 1) → ¬(p = 1 ∧ q = 0) →
      qget (handleComparisonChange [[1, 1], [1, 1]] 0 1 9) p q =
        qget [[1, 1], [1, 1]] p q) :=
  claim10_mutator_reciprocity [[1, 1], [1, 1]] 2 0 1 9
    (by unfold IsReciprocal IsSquare; with_unfolding_all decide)
    (by decide) (by decide) (by decide) (by with_unfolding_all decide)

/-- Counterexample for C5: the weight computation as invoked by the
program is `calculateWeights (normalizeMatrix m)`, and `normalizeMatrix`
divides by column sums with no zero guard; on the matrix
`[[0, 1], [0, 1]]`, whose first column sums to 0, the pipeline produces
`NaN` for both weights, contradicting the claim that a zero-sum column
never produces `NaN` weights. -/
theorem claim5_counterexample :
    colSum (liftMatrix [[0, 1], [0, 1]]) 2 0 = num 0 ∧
    calculateWeights (normalizeMatrix (liftMatrix [[0, 1], [0, 1]])) =
      [JsNum.nan, JsNum.nan] ∧
    [JsNum.nan, JsNum.nan] ≠ [num (1 / 4), num (1 / 4)] ∧
    calculateWeights (liftMatrix [[0, 1], [0, 1]]) =
      [num (1 / 4), num (1 / 4)] := by
  refine ⟨?_, ?_, by simp, ?_⟩ <;> with_unfolding_all rfl

/-- C5 (amended): `calculateWeights` itself implements the described
policy — each column with nonzero sum is normalized by it, a zero-sum
column is left unnormalized, weight i is the mean of row i — and on any
finite square matrix it produces only finite weights (never `NaN`, no
division by zero).  The unamended claim fails only because the program
invokes it on `normalizeMatrix`'s output, and `normalizeMatrix` divides
by zero-sum columns unguarded (see the counterexample). -/
theorem claim5_zero_column_guard (m : List (List ℚ)) (n : Nat)
    (hsq : IsSquare m n) (hn : 1 ≤ n) :
    calculateWeights (liftMatrix m) = (specWeightsQ m n).map num ∧
    ∀ w ∈ calculateWeights (liftMatrix m), ∃ q : ℚ, w = num q := by
  refine ⟨calculateWeights_lift m n hsq hn, ?_⟩
  intro w hw
  rw [calculateWeights_lift m n hsq hn] at hw
  obtain ⟨q, _, rfl⟩ := List.mem_map.1 hw
  exact ⟨q, rfl⟩

/-- Witness for C5 at the 2×2 matrix `[[0, 1], [0, 1]]` (zero-sum first
column): `calculateWeights` alone keeps the column unnormalized and
returns finite weights. -/
theorem claim5_zero_column_guard_witness :
    calculateWeights (liftMatrix [[0, 1], [0, 1]]) =
      (specWeightsQ [[0, 1], [0, 1]] 2).map num ∧
    ∀ w ∈ calculateWeights (liftMatrix [[0, 1], [0, 1]]),
      ∃ q : ℚ, w = num q :=
  claim5_zero_column_guard [[0, 1], [0, 1]] 2
    (by unfold IsSquare; with_unfolding_all decide) (by decide)

/-- C6: for an n×n matrix (n ≥ 1) with all positive entries,
`calculateWeights` returns a vector of length n whose entries sum to
exactly 1 (hence within the claim's ±1e-9 tolerance); the same holds for
the program's full pipeline `calculateWeights ∘ normalizeMatrix`; and for
n = 0 the computation returns the empty vector. -/
theorem claim6_weights_normalized (m : List (List ℚ)) (n : Nat)
    (hsq : IsSquare m n)
    (hpos : ∀ i < n, ∀ j < n, 0 < qget m i j) :
    (1 ≤ n →
      (calculateWeights (liftMatrix m)).length = n ∧
      (calculateWeights (liftMatrix m)).foldl jadd (num 0) = num 1 ∧
      (calculateWeights (normalizeMatrix (liftMatrix m))).length = n ∧
      (calculateWeights (normalizeMatrix (liftMatrix m))).foldl jadd
        (num 0) = num 1) ∧
    (n = 0 → calculateWeights (liftMatrix m) = []) := by
  constructor
  · intro hn
    have hS : ∀ j < n, 0 < colSumQ m n j := by
      intro j hj
      rw [colSumQ_eq]
      exact Finset.sum_pos
        (fun i hi => hpos i (Finset.mem_range.1 hi) j hj)
        (Finset.nonempty_range_iff.2 (by omega))
    have hmain : ∀ (mq : List (List ℚ)), IsSquare mq n →
        (∀ i < n, ∀ j < n, 0 < qget mq i j) →
        (calculateWeights (liftMatrix mq)).length = n ∧
        (calculateWeights (liftMatrix mq)).foldl jadd (num 0) = num 1 := by
      intro mq hsq' hpos'
      rw [calculateWeights_lift mq n hsq' hn]
      constructor
      · rw [List.length_map, specWeightsQ, List.length_map,
          List.length_range]
      · rw [foldl_jadd_num, zero_add, specWeightsQ_sum mq n hn hpos']
    have h1 := hmain m hsq hpos
    have hnorm : normalizeMatrix (liftMatrix m) = liftMatrix (normalizeQ m n) :=
      normalizeMatrix_lift m n hsq (fun j hj => ne_of_gt (hS j hj))
    have hpos' : ∀ i < n, ∀ j < n, 0 < qget (normalizeQ m n) i j := by
      intro i hi j hj
      rw [normalizeQ, qget_mk _ n i j hi hj]
      exact div_pos (hpos i hi j hj) (hS j hj)
    have h2 := hmain (normalizeQ m n) (normalizeQ_square m n) hpos'
    rw [hnorm]
    exact ⟨h1.1, h1.2, h2.1, h2.2⟩
  · intro hn
    have : m = [] := List.length_eq_zero.1 (hsq.1.trans hn)
    subst this
    rfl

theorem wget_lift (w : List ℚ) (j : Nat) (hj : j < w.length) :
    wget (w.map num) j = num (w.getD j 0) := by
  have h1 : (w.map num)[j]? = some (num w[j]) := by
    rw [List.getElem?_map, List.getElem?_eq_getElem hj]
    rfl
  have h2 : w.getD j 0 = w[j] := by
    simp [List.getD, List.get?_eq_getElem?, List.getElem?_eq_getElem hj]
  rw [wget, h1, h2]

/-- The `riMap[n-1] || 1.49` lookup never yields zero. -/
theorem riOf_ne_zero (n : Nat) : riOf n ≠ 0 := by
  rw [riOf]
  rcases h : riList[n - 1]? with - | v
  · show (1.49 : ℚ) ≠ 0
    norm_num
  · show (if v = 0 then (1.49 : ℚ) else v) ≠ 0
    by_cases hv : v = 0
    · rw [if_pos hv]
      norm_num
    · rw [if_neg hv]
      exact hv

/-- For n ≥ 3 the source's `riMap[n-1] || 1.49` agrees with the claim's
"table indexed 1-based, last value for n > 10" reading (the falsy-zero
case only arises for n ≤ 2). -/
theorem riOf_eq_specRi (n : Nat) (hn : 3 ≤ n) : riOf n = specRiQ n := by
  by_cases h10 : n ≤ 10
  · interval_cases n <;> with_unfolding_all norm_num [riOf, specRiQ, riList]
  · have hlen : riList.length = 10 := by rw [riList]; rfl
    have hnone : riList[n - 1]? = none :=
      List.getElem?_eq_none (by omega : riList.length ≤ n - 1)
    rw [riOf, hnone, specRiQ, if_neg h10]

/-- C7: for every square pairwise matrix with a weight vector, the
consistency check returns ratio 0 and `isConsistent = true` whenever
n ≤ 2 regardless of content, and for n ≥ 3 computes exactly the claim's
formula: `ws[i] = Σ_j m[i][j]*w[j]`, `cv[i] = ws[i]/w[i]` (0 when
`w[i] = 0`), `lambdaMax = mean(cv)`, `CI = (lambdaMax-n)/(n-1)`, `RI`
from the fixed table (1.49 for n > 10), `CR = CI/RI`, and
`isConsistent ↔ CR < 1/10` strictly. -/
theorem claim7_consistency (m : List (List ℚ)) (w : List ℚ) (n : Nat)
    (hsq : IsSquare m n) (hw : w.length = n) :
    (n ≤ 2 → calculateConsistency (liftMatrix m) (w.map num) =
      { cr := num 0, isConsistent := true }) ∧
    (3 ≤ n → calculateConsistency (liftMatrix m) (w.map num) =
      { cr := num (specConsistencyQ m w n),
        isConsistent := decide (specConsistencyQ m w n < 1 / 10) }) := by
  have hlen : (liftMatrix m).length = n := by rw [liftMatrix_length, hsq.1]
  constructor
  · intro hn
    rw [calculateConsistency, hlen, if_pos hn]
  · intro hn
    rw [calculateConsistency, hlen, if_neg (by omega)]
    have hws : ∀ i ∈ List.range n, consWs (liftMatrix m) (w.map num) n i =
        num (∑ j ∈ Finset.range n, qget m i j * w.getD j 0) := by
      intro i hi
      rw [consWs]
      have hmap : (List.range n).map
          (fun j => jmul (mget (liftMatrix m) i j) (wget (w.map num) j)) =
          ((List.range n).map
            (fun j => qget m i j * w.getD j 0)).map num := by
        rw [List.map_map]
        refine List.map_congr_left (fun j hj => ?_)
        have hj' : j < n := List.mem_range.1 hj
        rw [mget_lift m n i j hsq (List.mem_range.1 hi) hj',
          wget_lift w j (hw ▸ hj')]
        rfl
      rw [hmap, foldl_jadd_num, zero_add, sum_range_list]
    have hcv : (List.range n).map (consCv (liftMatrix m) (w.map num) n) =
        ((List.range n).map (fun i =>
          if w.getD i 0 = 0 then 0
          else (∑ j ∈ Finset.range n, qget m i j * w.getD j 0) /
            w.getD i 0)).map num := by
      rw [List.map_map]
      refine List.map_congr_left (fun i hi => ?_)
      have hi' : i < n := List.mem_range.1 hi
      rw [Function.comp, consCv, wget_lift w i (hw ▸ hi'), hws i hi, jeq_num]
      by_cases h0 : w.getD i 0 = 0
      · rw [if_pos (decide_eq_true h0), if_pos h0]
      · rw [if_neg (by rw [decide_eq_true_eq]; exact h0), if_neg h0,
          jdiv_num _ _ h0]
    rw [hcv, foldl_jadd_num, zero_add, sum_range_list]
    dsimp only []
    have hn0 : ((n : ℚ)) ≠ 0 := Nat.cast_ne_zero.2 (by omega)
    have hn1 : ((n : ℚ)) - 1 ≠ 0 := by
      have h3 : (3 : ℚ) ≤ (n : ℚ) := by exact_mod_cast hn
      intro h
      nlinarith
    rw [jdiv_num _ _ hn0, jsub_num, jdiv_num _ _ hn1,
      if_neg (riOf_ne_zero n), jdiv_num _ _ (riOf_ne_zero n),
      riOf_eq_specRi n hn]
    have h01 : (0.1 : ℚ) = 1 / 10 := by norm_num
    rw [h01]
    rfl

/-- Witness for C7: the spec's known-inconsistent 3×3 matrix with the
uniform weight vector `[1/3, 1/3, 1/3]` hits the n ≥ 3 branch, and the
trivial branch is exercised at n = 2. -/
theorem claim7_consistency_witness :
    (3 ≤ 3 → calculateConsistency
      (liftMatrix [[1, 9, 1], [1/9, 1, 9], [1, 1/9, 1]])
      ([1/3, 1/3, 1/3].map num) =
      { cr := num (specConsistencyQ [[1, 9, 1], [1/9, 1, 9], [1, 1/9, 1]]
          [1/3, 1/3, 1/3] 3),
        isConsistent := decide (specConsistencyQ
          [[1, 9, 1], [1/9, 1, 9], [1, 1/9, 1]] [1/3, 1/3, 1/3] 3
            < 1 / 10) }) ∧
    (2 ≤ 2 → calculateConsistency (liftMatrix [[1, 5], [1/5, 1]])
      ([1/2, 1/2].map num) = { cr := num 0, isConsistent := true }) :=
  ⟨(claim7_consistency [[1, 9, 1], [1/9, 1, 9], [1, 1/9, 1]]
      [1/3, 1/3, 1/3] 3
      (by unfold IsSquare; with_unfolding_all decide) (by decide)).2,
   (claim7_consistency [[1, 5], [1/5, 1]] [1/2, 1/2] 2
      (by unfold IsSquare; with_unfolding_all decide) (by decide)).1⟩

theorem getLastD_ne_nil {α : Type} (l : List α) (d₁ d₂ : α) (h : l ≠ []) :
    l.getLastD d₁ = l.getLastD d₂ := by
  cases l with
  | nil => exact absurd rfl h
  | cons a l => rfl

theorem crossIdx_le_length (v : ℚ) (l : List Point) :
    crossIdx (num v) l ≤ l.length := by
  induction l with
  | nil => exact Nat.le_refl 0
  | cons p l ih =>
      rw [crossIdx]
      by_cases hc : jlt (num p.x) (num v) = true
      · rw [if_pos hc]
        exact Nat.succ_le_succ ih
      · rw [if_neg hc]
        exact Nat.zero_le _

theorem crossIdx_pos (v : ℚ) (l : List Point) (hne : l ≠ [])
    (h : (l.headD ⟨0, 0⟩).x < v) : 0 < crossIdx (num v) l := by
  rcases l with - | ⟨p, l⟩
  · exact absurd rfl hne
  · rw [crossIdx, if_pos (by rw [jlt_num]; exact decide_eq_true h)]
    exact Nat.succ_pos _

theorem crossIdx_pred_lt (v : ℚ) (l : List Point)
    (h : 0 < crossIdx (num v) l) :
    (l.getD (crossIdx (num v) l - 1) ⟨0, 0⟩).x < v := by
  induction l with
  | nil => exact absurd h (by rw [crossIdx]; omega)
  | cons p l ih =>
      rw [crossIdx] at h ⊢
      by_cases hc : jlt (num p.x) (num v) = true
      · rw [if_pos hc] at h ⊢
        rcases Nat.eq_zero_or_pos (crossIdx (num v) l) with h0 | hpos
        · rw [h0]
          exact of_decide_eq_true (by rw [← jlt_num]; exact hc)
        · obtain ⟨k, hk⟩ := Nat.exists_eq_succ_of_ne_zero (by omega :
            crossIdx (num v) l ≠ 0)
          rw [hk]
          have := ih (by omega)
          rw [hk] at this
          simpa using this
      · rw [if_neg hc] at h
        omega

theorem crossIdx_get_not_lt (v : ℚ) (l : List Point)
    (h : crossIdx (num v) l < l.length) :
    ¬ (l.getD (crossIdx (num v) l) ⟨0, 0⟩).x < v := by
  induction l with
  | nil => simp at h
  | cons p l ih =>
      rw [crossIdx] at h ⊢
      by_cases hc : jlt (num p.x) (num v) = true
      · rw [if_pos hc] at h ⊢
        rw [List.getD_cons_succ]
        exact ih (by simpa using h)
      · rw [if_neg hc] at h ⊢
        rw [List.getD_cons_zero]
        intro hlt
        exact hc (by rw [jlt_num]; exact decide_eq_true hlt)

theorem crossIdx_eq_length (v : ℚ) (l : List Point) (hne : l ≠ [])
    (h : crossIdx (num v) l = l.length) :
    (l.getLastD ⟨0, 0⟩).x < v := by
  induction l with
  | nil => exact absurd rfl hne
  | cons p l ih =>
      rw [crossIdx] at h
      by_cases hc : jlt (num p.x) (num v) = true
      · rw [if_pos hc] at h
        rcases l with - | ⟨q, l'⟩
        · exact of_decide_eq_true (by rw [← jlt_num]; exact hc)
        · rw [List.getLastD_cons]
          rw [getLastD_ne_nil _ p ⟨0, 0⟩ (by simp)]
          exact ih (by simp) (by simpa using h)
      · rw [if_neg hc] at h
        simp at h

/-- Counterexample for C8: for the points `[(5,10), (5,20)]` and target
v = 5, v is at or above the maximum point's value (the last point of the
stable-sorted list, `(5,20)`, value 5), yet `interpolate` returns 10 (the
minimum point's utility — the left clamp is tested first), not the
maximum point's utility 20; so the unconditional right-clamp clause of
the claim fails when every point shares one value. -/
theorem claim8_counterexample :
    interpolate (num 5) [⟨5, 10⟩, ⟨5, 20⟩] = num 10 ∧
    (sortPoints [⟨5, 10⟩, ⟨5, 20⟩]).getLastD ⟨0, 0⟩ = ⟨5, 20⟩ ∧
    ((sortPoints [⟨5, 10⟩, ⟨5, 20⟩]).getLastD ⟨0, 0⟩).x ≤ 5 ∧
    ¬ (num 10 : JsNum) = num 20 := by
  refine ⟨?_, ?_, ?_, ?_⟩
  · with_unfolding_all rfl
  · with_unfolding_all rfl
  · show ((sortPoints [⟨5, 10⟩, ⟨5, 20⟩]).getLastD ⟨0, 0⟩).x ≤ 5
    rw [show (sortPoints [⟨5, 10⟩, ⟨5, 20⟩]).getLastD ⟨0, 0⟩ =
      (⟨5, 20⟩ : Point) from by with_unfolding_all rfl]
  · intro h
    have : (10 : ℚ) = 20 := by injection h
    norm_num at this

/-- C8 (amended): the Interpolator sorts points by value ascending with a
stable sort (permutation, sortedness, and tie-subsequence preservation
below); zero points give 0; one point gives its utility; v at or below
the minimum (first sorted) point's value gives that point's utility; v at
or above the maximum (last sorted) point's value — provided the left
clamp did not already apply, i.e. the minimum value is strictly below
v — gives the last point's utility; otherwise a bracketing pair
`p1.x < v ≤ p2.x` exists at consecutive sorted positions and the result
is `p1.y + (p2.y - p1.y) * (v - p1.x) / (p2.x - p1.x)` (the `p1.x = p2.x`
guard is unreachable there since `p1.x < v ≤ p2.x`). -/
theorem claim8_interpolate (v : ℚ) (points : List Point) :
    (points = [] → interpolate (num v) points = num 0) ∧
    (∀ p, points = [p] → interpolate (num v) points = num p.y) ∧
    (2 ≤ points.length →
      List.Perm (sortPoints points) points ∧
      (sortPoints points).Pairwise (fun a b => a.x ≤ b.x) ∧
      (∀ c : ℚ, (sortPoints points).filter (fun p => p.x = c) =
        points.filter (fun p => p.x = c)) ∧
      (v ≤ ((sortPoints points).headD ⟨0, 0⟩).x →
        interpolate (num v) points =
          num ((sortPoints points).headD ⟨0, 0⟩).y) ∧
      (((sortPoints points).headD ⟨0, 0⟩).x < v →
        ((sortPoints points).getLastD ⟨0, 0⟩).x ≤ v →
        interpolate (num v) points =
          num ((sortPoints points).getLastD ⟨0, 0⟩).y) ∧
      (((sortPoints points).headD ⟨0, 0⟩).x < v →
        v < ((sortPoints points).getLastD ⟨0, 0⟩).x →
        ∃ i, 0 < i ∧ i < (sortPoints points).length ∧
          ((sortPoints points).getD (i - 1) ⟨0, 0⟩).x < v ∧
          v ≤ ((sortPoints points).getD i ⟨0, 0⟩).x ∧
          interpolate (num v) points =
            num (((sortPoints points).getD (i - 1) ⟨0, 0⟩).y +
              (((sortPoints points).getD i ⟨0, 0⟩).y -
                ((sortPoints points).getD (i - 1) ⟨0, 0⟩).y) *
              (v - ((sortPoints points).getD (i - 1) ⟨0, 0⟩).x) /
              (((sortPoints points).getD i ⟨0, 0⟩).x -
                ((sortPoints points).getD (i - 1) ⟨0, 0⟩).x)))) := by
  refine ⟨?_, ?_, ?_⟩
  · rintro rfl
    rfl
  · rintro p rfl
    rfl
  · intro hlen
    rcases points with - | ⟨p, points⟩
    · simp at hlen
    rcases points with - | ⟨q, rest⟩
    · simp at hlen
    have hperm : List.Perm (sortPoints (p :: q :: rest)) (p :: q :: rest) :=
      sSort_perm pointLe _
    have hslen : (sortPoints (p :: q :: rest)).length =
        (p :: q :: rest).length := hperm.length_eq
    have hsne : sortPoints (p :: q :: rest) ≠ [] := by
      intro h
      rw [h] at hslen
      simp at hslen
    refine ⟨hperm, ?_, ?_, ?_, ?_, ?_⟩
    · have hp := sSort_pairwise pointLe (p :: q :: rest)
        (fun a _ b _ => by
          rcases le_total a.x b.x with h | h
          · exact Or.inl (decide_eq_true h)
          · exact Or.inr (decide_eq_true h))
        (fun a _ b _ c _ hab hbc => decide_eq_true
          (le_trans (of_decide_eq_true hab) (of_decide_eq_true hbc)))
      exact hp.imp (fun h => of_decide_eq_true h)
    · intro c
      exact sSort_filter pointLe Point.x
        (fun a b h => decide_eq_true (le_of_eq h)) (p :: q :: rest) c
    · intro hle
      rw [interpolate]
      rw [if_pos (by rw [jle_num]; exact decide_eq_true hle)]
    · intro hgt hle
      rw [interpolate]
      rw [if_neg (by rw [jle_num, decide_eq_true_eq]; exact not_le.2 hgt),
        if_pos (by rw [jle_num]; exact decide_eq_true hle)]
    · intro hgt hlt
      have hpos : 0 < crossIdx (num v) (sortPoints (p :: q :: rest)) :=
        crossIdx_pos v _ hsne hgt
      have hless : crossIdx (num v) (sortPoints (p :: q :: rest)) <
          (sortPoints (p :: q :: rest)).length := by
        rcases Nat.lt_or_ge (crossIdx (num v) (sortPoints (p :: q :: rest)))
          ((sortPoints (p :: q :: rest)).length) with h | h
        · exact h
        · have heq : crossIdx (num v) (sortPoints (p :: q :: rest)) =
              (sortPoints (p :: q :: rest)).length :=
            le_antisymm (crossIdx_le_length v _) h
          exact absurd (crossIdx_eq_length v _ hsne heq) (by
            intro hcon
            exact absurd hlt (not_lt.2 (le_of_lt hcon)))
      have hpred := crossIdx_pred_lt v (sortPoints (p :: q :: rest)) hpos
      have hnext := crossIdx_get_not_lt v (sortPoints (p :: q :: rest)) hless
      refine ⟨crossIdx (num v) (sortPoints (p :: q :: rest)), hpos, hless,
        hpred, not_lt.1 hnext, ?_⟩
      have hx12 : ((sortPoints (p :: q :: rest)).getD
            (crossIdx (num v) (sortPoints (p :: q :: rest)) - 1) ⟨0, 0⟩).x <
          ((sortPoints (p :: q :: rest)).getD
            (crossIdx (num v) (sortPoints (p :: q :: rest))) ⟨0, 0⟩).x :=
        lt_of_lt_of_le hpred (not_lt.1 hnext)
      rw [interpolate]
      rw [if_neg (by rw [jle_num, decide_eq_true_eq]; exact not_le.2 hgt),
        if_neg (by rw [jle_num, decide_eq_true_eq]; exact not_le.2 hlt),
        if_neg (ne_of_lt hx12), lerpAt, jsub_num,
        jdiv_num _ _ (sub_ne_zero.2 (ne_of_gt hx12)), jmul_num, jadd_num]
      congr 1
      ring

/-- Witness for C8: boundary and interior behaviour at the spec's sample
points `[(0,0), (100,100)]` (entered unsorted as `[(100,100), (0,0)]`)
with v = 50, plus the empty and singleton cases. -/
theorem claim8_interpolate_witness :
    ((([] : List Point) = [] →
      interpolate (num 50) ([] : List Point) = num 0) ∧
     (∀ p, ([] : List Point) = [p] →
      interpolate (num 50) ([] : List Point) = num p.y) ∧
     (2 ≤ ([] : List Point).length → True)) ∧
    (2 ≤ ([(⟨100, 100⟩ : Point), ⟨0, 0⟩] : List Point).length ∧
     interpolate (num 50) [(⟨100, 100⟩ : Point), ⟨0, 0⟩] = num 50 ∧
     sortPoints [(⟨100, 100⟩ : Point), ⟨0, 0⟩] = [⟨0, 0⟩, ⟨100, 100⟩]) := by
  constructor
  · have h := claim8_interpolate 50 []
    exact ⟨h.1, h.2.1, fun _ => trivial⟩
  · refine ⟨by decide, ?_, by with_unfolding_all rfl⟩
    have h := (claim8_interpolate 50 [⟨100, 100⟩, ⟨0, 0⟩]).2.2 (by decide)
    obtain ⟨-, -, -, -, -, hmid⟩ := h
    have hsort : sortPoints [(⟨100, 100⟩ : Point), ⟨0, 0⟩] =
        [⟨0, 0⟩, ⟨100, 100⟩] := by with_unfolding_all rfl
    obtain ⟨i, hipos, hilt, -, -, heq⟩ := hmid
      (by rw [hsort]; with_unfolding_all norm_num)
      (by rw [hsort]; with_unfolding_all norm_num)
    rw [heq, hsort] at *
    rw [hsort] at hilt
    have hi1 : i = 1 := by
      simp at hilt
      omega
    rw [hi1]
    with_unfolding_all norm_num

theorem lookupA_map {α β : Type} (k : String) (f : α → β)
    (l : List (String × α)) :
    lookupA k (l.map (fun r => (r.1, f r.2))) = (lookupA k l).map f := by
  induction l with
  | nil => rfl
  | cons r l ih =>
      rw [List.map_cons, lookupA, lookupA]
      by_cases h : r.1 = k
      · rw [if_pos h, if_pos h]
        rfl
      · rw [if_neg h, if_neg h]
        exact ih

theorem orZero_map_num (o : Option ℚ) :
    orZero (o.map num) = num (o.getD 0) := by
  cases o <;> rfl

theorem jlt_irrefl (a : JsNum) : jlt a a = false := by
  cases a with
  | num q => simp [jlt]
  | inf s => cases s <;> rfl
  | nan => rfl

theorem jlt_asymm (a b : JsNum) (h : jlt a b = true) : jlt b a = false := by
  cases a with
  | nan => cases b <;> simp_all [jlt]
  | num qa =>
      cases b with
      | num qb =>
          rw [jlt_num] at h
          rw [jlt_num]
          exact decide_eq_false (not_lt.2 (le_of_lt (of_decide_eq_true h)))
      | inf s => cases s <;> simp_all [jlt]
      | nan => simp_all [jlt]
  | inf s =>
      cases b with
      | num qb => cases s <;> simp_all [jlt]
      | inf t => cases s <;> cases t <;> simp_all [jlt]
      | nan => simp_all [jlt]

/-- Folding the score accumulation over an enumerated criteria list is an
exact rational weighted sum. -/
theorem foldl_score (l : List Item) (k : Nat) (u : Item → ℚ)
    (w : Nat → ℚ) (c : ℚ) :
    (l.enumFrom k).foldl
      (fun acc p => jadd acc (jmul (num (u p.2)) (num (w p.1)))) (num c) =
    num (c + ∑ i ∈ Finset.range l.length,
      u (l.getD i ⟨"", ""⟩) * w (k + i)) := by
  induction l generalizing k c with
  | nil => simp
  | cons a l ih =>
      have hsum : ∀ i ∈ Finset.range l.length,
          u ((a :: l).getD (i + 1) ⟨"", ""⟩) * w (k + (i + 1)) =
          u (l.getD i ⟨"", ""⟩) * w (k + 1 + i) := by
        intro i _
        rw [List.getD_cons_succ]
        congr 2
        omega
      rw [List.enumFrom, List.foldl_cons, jmul_num, jadd_num, ih]
      rw [List.length_cons, Finset.sum_range_succ', List.getD_cons_zero,
        Finset.sum_congr rfl hsum]
      congr 1
      rw [add_assoc, add_comm (u a * w k) _]
      norm_num

theorem cellGet_lift (grid : List (String × List (String × ℚ)))
    (oid cid : String) :
    cellGet (liftGrid grid) oid cid =
      ((lookupA oid grid).bind (lookupA cid)).map num := by
  rw [cellGet, liftGrid, lookupA_map]
  cases lookupA oid grid with
  | none => rfl
  | some row =>
      show lookupA cid (row.map (fun c => (c.1, num c.2))) =
        (lookupA cid row).map num
      exact lookupA_map cid num row

theorem qcell_eq (grid : List (String × List (String × ℚ)))
    (oid cid : String) :
    qcell grid oid cid = ((lookupA oid grid).bind (lookupA cid)).getD 0 := by
  rw [qcell]
  cases (lookupA oid grid).bind (lookupA cid) <;> rfl

/-- C9: the ScoreAggregator computes
`score(option) = Σ_i utility(option, criteria[i]) * weight[i]` with
missing utility cells and missing weights treated as 0, and the ranking
is a permutation of the enriched options, sorted by score descending,
with the tied subsequences (hence the relative order of tied options)
exactly as in the original options sequence. -/
theorem claim9_aggregation (options criteria : List Item) (wq : List ℚ)
    (grid : List (String × List (String × ℚ)))
    (finalScores : List FinalScore)
    (hfin : ∀ s ∈ finalScores, ∃ q : ℚ, s.score = num q)
    (hne : finalScores.length ≠ 0) :
    calculateFinalScores options criteria (wq.map num) (liftGrid grid) =
      options.map (fun o =>
        { optionId := o.id
          score := num (∑ i ∈ Finset.range criteria.length,
            qcell grid o.id (criteria.getD i ⟨"", ""⟩).id *
              wq.getD i 0) }) ∧
    List.Perm (sortedOptions options finalScores)
      (enrichOptions options finalScores) ∧
    (sortedOptions options finalScores).Pairwise
      (fun a b => toQ b.score ≤ toQ a.score) ∧
    (∀ c : JsNum, (sortedOptions options finalScores).filter
        (fun e => e.score = c) =
      (enrichOptions options finalScores).filter (fun e => e.score = c)) := by
  have hsorted : sortedOptions options finalScores =
      sSort optLe (enrichOptions options finalScores) := by
    rw [sortedOptions, if_neg hne]
  have hefin : ∀ e ∈ enrichOptions options finalScores,
      ∃ q : ℚ, e.score = num q := by
    intro e he
    rw [enrichOptions] at he
    obtain ⟨o, -, rfl⟩ := List.mem_map.1 he
    cases hfind : finalScores.find? (fun s => s.optionId = o.id) with
    | none => exact ⟨0, rfl⟩
    | some s =>
        obtain ⟨q, hq⟩ := hfin s (List.mem_of_find?_eq_some hfind)
        refine ⟨q, ?_⟩
        show orZero (some s.score) = num q
        rw [hq]
        rfl
  refine ⟨?_, ?_, ?_, ?_⟩
  · rw [calculateFinalScores]
    refine List.map_congr_left (fun o _ => ?_)
    have hext : ∀ (acc : JsNum), ∀ p ∈ criteria.enum,
        jadd acc (jmul (orZero (cellGet (liftGrid grid) o.id p.2.id))
          (orZero (wq.map num)[p.1]?)) =
        jadd acc (jmul (num (qcell grid o.id p.2.id))
          (num (wq.getD p.1 0))) := by
      intro acc p _
      rw [cellGet_lift, orZero_map_num, ← qcell_eq]
      rw [List.getElem?_map, orZero_map_num]
      rw [show wq[p.1]?.getD 0 = wq.getD p.1 0 from by
        simp [List.getD, List.get?_eq_getElem?]]
    rw [List.foldl_ext _ _ _ hext]
    rw [show criteria.enum = criteria.enumFrom 0 from rfl,
      foldl_score criteria 0 (fun it => qcell grid o.id it.id)
        (fun i => wq.getD i 0) 0]
    have hclean : (0 : ℚ) + ∑ i ∈ Finset.range criteria.length,
        qcell grid o.id ((criteria.getD i ⟨"", ""⟩)).id * wq.getD (0 + i) 0 =
        ∑ i ∈ Finset.range criteria.length,
        qcell grid o.id ((criteria.getD i ⟨"", ""⟩)).id * wq.getD i 0 := by
      rw [zero_add]
      exact Finset.sum_congr rfl (fun i _ => by rw [Nat.zero_add])
    rw [hclean]
  · rw [hsorted]
    exact sSort_perm optLe _
  · rw [hsorted]
    have hp := sSort_pairwise optLe (enrichOptions options finalScores)
      (fun a _ b _ => by
        by_cases h : jlt a.score b.score = true
        · exact Or.inr (by rw [optLe, jlt_asymm _ _ h]; rfl)
        · exact Or.inl (by
            rw [optLe, Bool.eq_false_iff.2 (fun hx => h hx)]
            rfl))
      (fun a ha b hb c hc hab hbc => by
        obtain ⟨qa, hqa⟩ := hefin a ha
        obtain ⟨qb, hqb⟩ := hefin b hb
        obtain ⟨qc, hqc⟩ := hefin c hc
        rw [optLe, hqa, hqb, jlt_num, Bool.not_eq_eq_eq_not, Bool.not_true,
          decide_eq_false_iff_not] at hab
        rw [optLe, hqb, hqc, jlt_num, Bool.not_eq_eq_eq_not, Bool.not_true,
          decide_eq_false_iff_not] at hbc
        rw [optLe, hqa, hqc, jlt_num, Bool.not_eq_eq_eq_not, Bool.not_true,
          decide_eq_false_iff_not]
        intro hac
        exact hab (lt_of_lt_of_le hac (le_of_not_lt hbc)))
    have hmem : ∀ e ∈ sSort optLe (enrichOptions options finalScores),
        e ∈ enrichOptions options finalScores :=
      fun e he => (sSort_perm optLe _).mem_iff.1 he
    refine hp.imp_of_mem ?_
    intro a b ha hb hab
    obtain ⟨qa, hqa⟩ := hefin a (hmem a ha)
    obtain ⟨qb, hqb⟩ := hefin b (hmem b hb)
    rw [optLe, hqa, hqb, jlt_num, Bool.not_eq_eq_eq_not, Bool.not_true,
      decide_eq_false_iff_not] at hab
    rw [hqa, hqb, toQ, toQ]
    exact le_of_not_lt hab
  · intro c
    rw [hsorted]
    exact sSort_filter optLe ScoredOption.score
      (fun a b h => by rw [optLe, h, jlt_irrefl]; rfl)
      (enrichOptions options finalScores) c

/-- Witness for C9: the spec's tie-break example — weights
`[1/2, 1/2]`, two options with utility rows `(100, 0)` and `(0, 100)` —
both score 50 and the tied pair keeps its original relative order. -/
theorem claim9_aggregation_witness :
    calculateFinalScores [⟨"A", "A"⟩, ⟨"B", "B"⟩] [⟨"c1", "c1"⟩, ⟨"c2", "c2"⟩]
      ([1/2, 1/2].map num)
      (liftGrid [("A", [("c1", 100), ("c2", 0)]),
                 ("B", [("c1", 0), ("c2", 100)])]) =
      [⟨"A", num 50⟩, ⟨"B", num 50⟩] ∧
    sortedOptions [⟨"A", "A"⟩, ⟨"B", "B"⟩]
      [⟨"A", num 50⟩, ⟨"B", num 50⟩] =
      [⟨"A", "A", num 50⟩, ⟨"B", "B", num 50⟩] := by
  have h := claim9_aggregation [⟨"A", "A"⟩, ⟨"B", "B"⟩]
    [⟨"c1", "c1"⟩, ⟨"c2", "c2"⟩] [1/2, 1/2]
    [("A", [("c1", 100), ("c2", 0)]), ("B", [("c1", 0), ("c2", 100)])]
    [⟨"A", num 50⟩, ⟨"B", num 50⟩]
    (by
      intro s hs
      rcases List.mem_cons.1 hs with rfl | hs'
      · exact ⟨50, rfl⟩
      · rcases List.mem_cons.1 hs' with rfl | hs''
        · exact ⟨50, rfl⟩
        · simp at hs'')
    (by decide)
  refine ⟨?_, ?_⟩
  · rw [h.1]
    with_unfolding_all rfl
  · with_unfolding_all rfl

/-- C4: the evaluator fails (returns the `null` signal) exactly when the
string has a character outside the whitelist, or parsing/evaluation
fails, or the numeric result is `NaN`; any other result — including an
infinity from division by zero — is returned as the value.  (The host
engine's parse/evaluate step behind `new Function` is modelled by the
closed-form parser `parseFormula` and `evalA`.) -/
theorem claim4_safeEval (expr : String) (x : JsNum) :
    (safeEval expr x = none ↔
      hasBadChar expr = true ∨ parseFormula expr = none ∨
      (∃ e, parseFormula expr = some e ∧ (evalA e x).isNaN = true)) ∧
    (∀ e, hasBadChar expr = false → parseFormula expr = some e →
      (evalA e x).isNaN = false → safeEval expr x = some (evalA e x)) := by
  constructor
  · rw [safeEval]
    by_cases hb : hasBadChar expr = true
    · rw [if_pos hb]
      exact ⟨fun _ => Or.inl hb, fun _ => rfl⟩
    · rw [if_neg hb]
      cases hp : parseFormula expr with
      | none =>
          show (none : Option JsNum) = none ↔ _
          simp
      | some e =>
          show (if (evalA e x).isNaN = true then none
            else some (evalA e x)) = none ↔ _
          by_cases hnan : (evalA e x).isNaN = true
          · rw [if_pos hnan]
            exact ⟨fun _ => Or.inr (Or.inr ⟨e, rfl, hnan⟩), fun _ => rfl⟩
          · rw [if_neg hnan]
            constructor
            · intro h
              exact absurd h (by simp)
            · rintro (h | h | ⟨e', he', hnan'⟩)
              · exact absurd h hb
              · exact absurd h (by simp)
              · have he : e' = e := (Option.some.inj he').symm
                rw [he] at hnan'
                exact absurd hnan' hnan
  · intro e hb' hp hnan
    rw [safeEval, if_neg (by rw [hb']; simp), hp]
    show (if (evalA e x).isNaN = true then none
      else some (evalA e x)) = some (evalA e x)
    rw [if_neg (by rw [hnan]; simp)]

/-- Witness for C4: the spec's sample formula evaluates to 50 at
x = 50000 through the theorem; division by zero yields `Infinity` as a
value; `0/0` (a `NaN` result) is surfaced as failure, not 0. -/
theorem claim4_safeEval_witness :
    hasBadChar "100 - x/1000" = false ∧
    parseFormula "100 - x/1000" =
      some (AExp.sub (AExp.lit 100) (AExp.divE AExp.varX (AExp.lit 1000))) ∧
    safeEval "100 - x/1000" (num 50000) = some (num 50) ∧
    safeEval "1/0" (num 1) = some (JsNum.inf true) ∧
    safeEval "0/0" (num 1) = none := by
  have h1 : hasBadChar "100 - x/1000" = false := by with_unfolding_all rfl
  have h2 : parseFormula "100 - x/1000" =
      some (AExp.sub (AExp.lit 100) (AExp.divE AExp.varX (AExp.lit 1000))) := by
    with_unfolding_all rfl
  refine ⟨h1, h2, ?_, ?_, ?_⟩
  · have h3 := (claim4_safeEval "100 - x/1000" (num 50000)).2
      (AExp.sub (AExp.lit 100) (AExp.divE AExp.varX (AExp.lit 1000)))
      h1 h2 (by with_unfolding_all rfl)
    rw [h3]
    with_unfolding_all rfl
  · have h4 := (claim4_safeEval "1/0" (num 1)).2
      (AExp.divE (AExp.lit 1) (AExp.lit 0))
      (by with_unfolding_all rfl) (by with_unfolding_all rfl)
      (by with_unfolding_all rfl)
    rw [h4]
    with_unfolding_all rfl
  · exact (claim4_safeEval "0/0" (num 1)).1.2
      (Or.inr (Or.inr ⟨AExp.divE (AExp.lit 0) (AExp.lit 0),
        by with_unfolding_all rfl, by with_unfolding_all rfl⟩))

/-- The final clamp maps every non-NaN value into `[0, 100]`. -/
theorem clampUtility_range (u : JsNum) (hu : u.isNaN = false) :
    ∃ q : ℚ, clampUtility u = num q ∧ 0 ≤ q ∧ q ≤ 100 := by
  cases u with
  | nan => simp [isNaN] at hu
  | num q =>
      rw [clampUtility, jmin]
      by_cases h1 : q < 100
      · rw [if_neg (by simp [isNaN]),
          if_pos (by rw [jlt_num]; exact decide_eq_true h1), jmax]
        by_cases h2 : 0 < q
        · rw [if_neg (by simp [isNaN]),
            if_pos (by rw [jlt_num]; exact decide_eq_true h2)]
          exact ⟨q, rfl, le_of_lt h2, le_of_lt h1⟩
        · rw [if_neg (by simp [isNaN]),
            if_neg (by rw [jlt_num, decide_eq_true_eq]; exact h2)]
          exact ⟨0, rfl, le_refl 0, by norm_num⟩
      · rw [if_neg (by simp [isNaN]),
          if_neg (by rw [jlt_num, decide_eq_true_eq]; exact h1), jmax]
        rw [if_neg (by simp [isNaN]), if_pos (by
          rw [jlt_num]
          exact decide_eq_true (by norm_num : (0 : ℚ) < 100))]
        exact ⟨100, rfl, by norm_num, le_refl 100⟩
  | inf s =>
      cases s
      · exact ⟨0, rfl, le_refl 0, by norm_num⟩
      · exact ⟨100, rfl, by norm_num, le_refl 100⟩

/-- A value returned by `safeEval` is never `NaN` (the `isNaN` guard). -/
theorem safeEval_not_nan (s : String) (x : JsNum) (r : JsNum)
    (h : safeEval s x = some r) : r.isNaN = false := by
  rw [safeEval] at h
  by_cases hb : hasBadChar s = true
  · rw [if_pos hb] at h
    exact absurd h (by simp)
  · rw [if_neg hb] at h
    cases hp : parseFormula s with
    | none =>
        rw [hp] at h
        exact absurd h (by simp)
    | some e =>
        rw [hp] at h
        have h' : (if (evalA e x).isNaN = true then none
            else some (evalA e x)) = some r := h
        by_cases hn : (evalA e x).isNaN = true
        · rw [if_pos hn] at h'
          exact absurd h' (by simp)
        · rw [if_neg hn] at h'
          have : evalA e x = r := Option.some.inj h'
          rw [← this]
          exact Bool.eq_false_iff.2 hn

/-- The interpolator never produces `NaN` from a non-NaN target value
(its arithmetic divides only by a nonzero difference of x-values). -/
theorem interpolate_not_nan (v : JsNum) (pts : List Point)
    (hv : v.isNaN = false) : (interpolate v pts).isNaN = false := by
  match pts with
  | [] => rfl
  | [p] => rfl
  | p :: q :: rest =>
    rw [interpolate]
    cases v with
    | nan => simp [isNaN] at hv
    | inf s =>
        cases s
        · rw [if_pos (show jle (inf false) (num (((sortPoints
            (p :: q :: rest)).headD ⟨0, 0⟩).x)) = true from rfl)]
          rfl
        · rw [if_neg (by simp [jle]), if_pos (show jle (num (((sortPoints
            (p :: q :: rest)).getLastD ⟨0, 0⟩).x)) (inf true) = true from rfl)]
          rfl
    | num vq =>
        by_cases h1 : jle (num vq)
            (num (((sortPoints (p :: q :: rest)).headD ⟨0, 0⟩).x)) = true
        · rw [if_pos h1]
          rfl
        · rw [if_neg h1]
          by_cases h2 : jle
              (num (((sortPoints (p :: q :: rest)).getLastD ⟨0, 0⟩).x))
              (num vq) = true
          · rw [if_pos h2]
            rfl
          · rw [if_neg h2]
            by_cases h3 : ((sortPoints (p :: q :: rest)).getD
                  (crossIdx (num vq) (sortPoints (p :: q :: rest)) - 1)
                  ⟨0, 0⟩).x =
                ((sortPoints (p :: q :: rest)).getD
                  (crossIdx (num vq) (sortPoints (p :: q :: rest)))
                  ⟨0, 0⟩).x
            · rw [if_pos h3]
              rfl
            · rw [if_neg h3, lerpAt, jsub_num,
                jdiv_num _ _ (sub_ne_zero.2 (fun he => h3 he.symm)),
                jmul_num, jadd_num]
              rfl

/-- C1: the per-cell utility evaluation (the dispatch shared verbatim by
Step4's `calculateScores` and by `calculateOptionValues`, the two code
paths that compute a UtilityScore) refines the spec's tagged-variant
description: a qualitative record behaves as the spec's `Qualitative`
variant, a quantitative record in formula mode as `QuantitativeFormula`
(an empty formula string, which the code skips, equals the evaluator
failing on the empty string), a quantitative record in table mode as
`QuantitativeTable`; a missing function gives 0; and on every input the
result is a finite number clamped into `[0, 100]`. -/
theorem claim1_utility_dispatch (f : UtilityFunc) (raw : JsVal) :
    (computeUtility none raw = num 0) ∧
    (f.criterionType = "qualitative" →
      computeUtility (some f) raw =
        specUtility (UFVariant.qual f.qualitativeLevels) raw) ∧
    (f.criterionType ≠ "qualitative" → f.mode = "formula" →
      computeUtility (some f) raw =
        specUtility (UFVariant.quantFormula f.formulaString) raw) ∧
    (f.criterionType ≠ "qualitative" → f.mode = "table" →
      computeUtility (some f) raw =
        specUtility (UFVariant.quantTable f.points) raw) ∧
    (∃ q : ℚ, computeUtility (some f) raw = num q ∧ 0 ≤ q ∧ q ≤ 100) := by
  have hempty : ∀ x : JsNum, safeEval "" x = none := fun x => by
    with_unfolding_all rfl
  refine ⟨?_, ?_, ?_, ?_, ?_⟩
  · show clampUtility (num 0) = num 0
    with_unfolding_all rfl
  · intro hq
    show clampUtility (computeUtilityBody f raw) =
      clampUtility (specUtilityBody (UFVariant.qual f.qualitativeLevels) raw)
    rw [computeUtilityBody, if_pos hq]
    rfl
  · intro hq hm
    show clampUtility (computeUtilityBody f raw) =
      clampUtility (if (parseFloatVal raw).isNaN = true then num 0
        else match safeEval f.formulaString (parseFloatVal raw) with
          | some r => r
          | none => num 0)
    rw [computeUtilityBody, if_neg hq]
    by_cases hv : (parseFloatVal raw).isNaN = true
    · rw [if_pos hv, if_pos hv]
    · rw [if_neg hv, if_neg hv]
      by_cases hfs : f.formulaString = ""
      · rw [if_neg (fun hc => hc.2 hfs),
          if_neg (by
            rintro ⟨hmt, -⟩
            rw [hm] at hmt
            exact absurd hmt (by decide)),
          hfs, hempty]
      · rw [if_pos ⟨hm, hfs⟩]
  · intro hq hm
    show clampUtility (computeUtilityBody f raw) =
      clampUtility (if (parseFloatVal raw).isNaN = true then num 0
        else if f.points = [] then num 0
        else interpolate (parseFloatVal raw) f.points)
    rw [computeUtilityBody, if_neg hq]
    by_cases hv : (parseFloatVal raw).isNaN = true
    · rw [if_pos hv, if_pos hv]
    · rw [if_neg hv, if_neg hv]
      rw [if_neg (by
        rintro ⟨hmf, -⟩
        rw [hm] at hmf
        exact absurd hmf (by decide))]
      by_cases hpts : f.points = []
      · rw [if_neg (fun hc => hc.2 hpts), if_pos hpts]
      · rw [if_pos ⟨hm, hpts⟩, if_neg hpts]
  · show ∃ q : ℚ, clampUtility (computeUtilityBody f raw) = num q ∧
      0 ≤ q ∧ q ≤ 100
    refine clampUtility_range _ ?_
    rw [computeUtilityBody]
    by_cases hq : f.criterionType = "qualitative"
    · rw [if_pos hq]
      cases f.qualitativeLevels.find? (labelMatches raw) <;> rfl
    · rw [if_neg hq]
      by_cases hv : (parseFloatVal raw).isNaN = true
      · rw [if_pos hv]
        rfl
      · rw [if_neg hv]
        by_cases hform : f.mode = "formula" ∧ f.formulaString ≠ ""
        · rw [if_pos hform]
          cases hse : safeEval f.formulaString (parseFloatVal raw) with
          | none => rfl
          | some r => exact safeEval_not_nan _ _ _ hse
        · rw [if_neg hform]
          by_cases htab : f.mode = "table" ∧ f.points ≠ []
          · rw [if_pos htab]
            exact interpolate_not_nan _ _ (Bool.eq_false_iff.2 hv)
          · rw [if_neg htab]
            rfl

/-- Witness for C1: a qualitative function at a matching label, a formula
function at a numeric raw string, and a table function at a numeric raw
string, each agreeing with the spec variant and landing in `[0, 100]`. -/
theorem claim1_utility_dispatch_witness :
    computeUtility
      (some ⟨"qualitative", "table", "", [], [⟨"Low", 100⟩, ⟨"High", 0⟩]⟩)
      (JsVal.str "Low") =
      specUtility (UFVariant.qual [⟨"Low", 100⟩, ⟨"High", 0⟩])
        (JsVal.str "Low") ∧
    computeUtility (some ⟨"quantitative", "formula", "x*2", [], []⟩)
      (JsVal.str "80") =
      specUtility (UFVariant.quantFormula "x*2") (JsVal.str "80") ∧
    computeUtility
      (some ⟨"quantitative", "table", "", [⟨0, 0⟩, ⟨100, 100⟩], []⟩)
      (JsVal.str "42.5") =
      specUtility (UFVariant.quantTable [⟨0, 0⟩, ⟨100, 100⟩])
        (JsVal.str "42.5") ∧
    (∃ q : ℚ, computeUtility
      (some ⟨"quantitative", "formula", "x*2", [], []⟩)
      (JsVal.str "80") = num q ∧ 0 ≤ q ∧ q ≤ 100) :=
  ⟨(claim1_utility_dispatch
      ⟨"qualitative", "table", "", [], [⟨"Low", 100⟩, ⟨"High", 0⟩]⟩
      (JsVal.str "Low")).2.1 rfl,
   (claim1_utility_dispatch ⟨"quantitative", "formula", "x*2", [], []⟩
      (JsVal.str "80")).2.2.1 (by decide) rfl,
   (claim1_utility_dispatch
      ⟨"quantitative", "table", "", [⟨0, 0⟩, ⟨100, 100⟩], []⟩
      (JsVal.str "42.5")).2.2.2.1 (by decide) rfl,
   (claim1_utility_dispatch ⟨"quantitative", "formula", "x*2", [], []⟩
      (JsVal.str "80")).2.2.2.2⟩

/-- A key that is neither a canonical numeric index nor `length` reads
`undefined` off the id string. -/
theorem idLookup_undef (s k : String) (h : ¬ isStringProp s k) :
    idLookup s k = JsVal.undef := by
  rw [idLookup, if_neg (fun hl => h (Or.inl hl))]
  cases ht : k.toNat? with
  | none => rfl
  | some i =>
      show (if Nat.repr i = k ∧ i < s.length
          then JsVal.str (String.singleton (s.toList.getD i ' '))
          else JsVal.undef) = JsVal.undef
      rw [if_neg (by
        rintro ⟨h1, h2⟩
        exact h (Or.inr ⟨i, h2, h1⟩))]

/-- An `undefined` raw value always produces utility 0: no qualitative
label matches it and `parseFloat` yields `NaN` on it. -/
theorem computeUtility_undef (fOpt : Option UtilityFunc) :
    computeUtility fOpt JsVal.undef = num 0 := by
  cases fOpt with
  | none =>
      show clampUtility (num 0) = num 0
      with_unfolding_all rfl
  | some f =>
      show clampUtility (computeUtilityBody f JsVal.undef) = num 0
      rw [computeUtilityBody]
      by_cases hq : f.criterionType = "qualitative"
      · rw [if_pos hq,
          List.find?_eq_none.2 (fun l _ => by simp [labelMatches])]
        with_unfolding_all rfl
      · rw [if_neg hq,
          if_pos (show (parseFloatVal JsVal.undef).isNaN = true from rfl)]
        with_unfolding_all rfl

theorem lookupA_const {α : Type} (items : List Item) (v : α) (k : String)
    (h : ∃ it ∈ items, it.id = k) :
    lookupA k (items.map (fun it => (it.id, v))) = some v := by
  induction items with
  | nil =>
      obtain ⟨it, h1, -⟩ := h
      simp at h1
  | cons a l ih =>
      rw [List.map_cons, lookupA]
      by_cases hk : a.id = k
      · rw [if_pos hk]
      · rw [if_neg hk]
        obtain ⟨it, hmem, hid⟩ := h
        rcases List.mem_cons.1 hmem with rfl | hmem'
        · exact absurd hid hk
        · exact ih ⟨it, hmem', hid⟩

theorem orZero_weights (weights : List JsNum)
    (hw : ∀ w ∈ weights, ∃ q : ℚ, w = num q) (i : Nat) :
    ∃ q : ℚ, orZero weights[i]? = num q := by
  cases hg : weights[i]? with
  | none => exact ⟨0, rfl⟩
  | some w =>
      have hmem : w ∈ weights := by
        obtain ⟨hlt, rfl⟩ := List.getElem?_eq_some.1 hg
        exact List.getElem_mem hlt
      obtain ⟨q, rfl⟩ := hw w hmem
      exact ⟨q, rfl⟩

theorem foldl_jadd_zero {α : Type} (l : List α) (t : α → JsNum)
    (h : ∀ p ∈ l, t p = num 0) :
    l.foldl (fun acc p => jadd acc (t p)) (num 0) = num 0 := by
  induction l with
  | nil => rfl
  | cons a l ih =>
      rw [List.foldl_cons, h a (by simp),
        show jadd (num 0) (num 0) = num 0 from by rw [jadd_num, add_zero]]
      exact ih (fun p hp => h p (by simp [hp]))

/-- Counterexample for C2: with the single option id `"Dual Primary"` and
the single criterion id `"length"` — which is not a valid numeric
character index into any option id — the lookup `option.id[criterion.id]`
hits the string's `length` property (12), `parseFloat(12)` succeeds, and
the table `[(0,0),(100,100)]` interpolates to utility 12, not 0; so the
claim's "utility 0 for every pair whenever no criterion id is a valid
numeric character index" fails as stated. -/
theorem claim2_counterexample :
    (∀ i < ("Dual Primary".length), Nat.repr i ≠ "length") ∧
    calculateOptionValues [⟨"Dual Primary", "Dual Primary"⟩]
      [⟨"length", "length"⟩]
      [("length",
        ⟨"quantitative", "table", "", [⟨0, 0⟩, ⟨100, 100⟩], []⟩)] =
      [("Dual Primary", [("length", num 12)])] ∧
    (num 12 : JsNum) ≠ num 0 := by
  refine ⟨by with_unfolding_all decide, by with_unfolding_all rfl, ?_⟩
  intro h
  have h12 : (12 : ℚ) = 0 := by injection h
  norm_num at h12

/-- C2 (amended): Step4's `calculateScores` reads the entered value
`optionValues[option.id][criterion.id]`, while `calculateOptionValues`
(feeding App's `finalScores` memo and the report) takes no entered-value
grid at all and reads `option.id[criterion.id]`.  For every state in
which no criterion id is a valid numeric character index into an option
id string **nor the string `length`** (the id string's other own
property — see the counterexample), `calculateOptionValues` yields
utility 0 for every (option, criterion) pair, so with finite weights its
FinalScore list is identically 0 and the two pipelines produce equal
FinalScore lists exactly when the entered-value pipeline also scores
every option 0; and in general the two pipelines are not equivalent
(final conjunct: a one-option state on which they differ). -/
theorem claim2_pipelines (options criteria : List Item)
    (funcs : List (String × UtilityFunc)) (vals : RawGrid)
    (weights : List JsNum)
    (hnoidx : ∀ o ∈ options, ∀ c ∈ criteria, ¬ isStringProp o.id c.id)
    (hw : ∀ w ∈ weights, ∃ q : ℚ, w = num q) :
    calculateOptionValues options criteria funcs =
      options.map (fun o =>
        (o.id, criteria.map (fun c => (c.id, (num 0 : JsNum))))) ∧
    calculateFinalScores options criteria weights
      (calculateOptionValues options criteria funcs) =
      options.map (fun o => { optionId := o.id, score := num 0 }) ∧
    (calculateFinalScores options criteria weights
        (calculateScores options criteria vals funcs) =
      calculateFinalScores options criteria weights
        (calculateOptionValues options criteria funcs) ↔
      ∀ s ∈ calculateFinalScores options criteria weights
        (calculateScores options criteria vals funcs), s.score = num 0) ∧
    calculateFinalScores [⟨"A", "A"⟩] [⟨"c1", "c1"⟩] [num 1]
      (calculateScores [⟨"A", "A"⟩] [⟨"c1", "c1"⟩]
        [("A", [("c1", JsVal.str "Low")])]
        [("c1", ⟨"qualitative", "table", "", [], [⟨"Low", 100⟩]⟩)]) ≠
    calculateFinalScores [⟨"A", "A"⟩] [⟨"c1", "c1"⟩] [num 1]
      (calculateOptionValues [⟨"A", "A"⟩] [⟨"c1", "c1"⟩]
        [("c1", ⟨"qualitative", "table", "", [], [⟨"Low", 100⟩]⟩)]) := by
  have hgrid : calculateOptionValues options criteria funcs =
      options.map (fun o =>
        (o.id, criteria.map (fun c => (c.id, (num 0 : JsNum))))) := by
    rw [calculateOptionValues]
    refine List.map_congr_left (fun o ho => ?_)
    congr 1
    refine List.map_congr_left (fun c hc => ?_)
    congr 1
    rw [idLookup_undef o.id c.id (hnoidx o ho c hc)]
    exact computeUtility_undef _
  have hzero : calculateFinalScores options criteria weights
      (calculateOptionValues options criteria funcs) =
      options.map (fun o => { optionId := o.id, score := num 0 }) := by
    rw [hgrid, calculateFinalScores]
    refine List.map_congr_left (fun o ho => ?_)
    have hcell : ∀ p ∈ criteria.enum,
        jmul (orZero (cellGet
          (options.map (fun o =>
            (o.id, criteria.map (fun c => (c.id, (num 0 : JsNum))))))
          o.id p.2.id))
          (orZero weights[p.1]?) = num 0 := by
      intro p hp
      have hpmem : p.2 ∈ criteria := by
        obtain ⟨hlt, heq⟩ :=
          List.getElem?_eq_some.1 (List.mem_enum_iff_getElem?.1 hp)
        exact heq ▸ List.getElem_mem hlt
      have hrow : lookupA o.id (options.map (fun o =>
          (o.id, criteria.map (fun c => (c.id, (num 0 : JsNum)))))) =
          some (criteria.map (fun c => (c.id, (num 0 : JsNum)))) :=
        lookupA_const options _ o.id ⟨o, ho, rfl⟩
      have hcol : lookupA p.2.id
          (criteria.map (fun c => (c.id, (num 0 : JsNum)))) =
          some (num 0) :=
        lookupA_const criteria _ p.2.id ⟨p.2, hpmem, rfl⟩
      rw [cellGet, hrow, Option.some_bind, hcol]
      obtain ⟨q, hq⟩ := orZero_weights weights hw p.1
      rw [hq]
      show jmul (num 0) (num q) = num 0
      rw [jmul_num, zero_mul]
    rw [foldl_jadd_zero criteria.enum _ hcell]
  refine ⟨hgrid, hzero, ?_, ?_⟩
  · rw [hzero]
    constructor
    · intro h s hs
      rw [h] at hs
      obtain ⟨o, -, rfl⟩ := List.mem_map.1 hs
      rfl
    · intro h
      have hmap : calculateFinalScores options criteria weights
          (calculateScores options criteria vals funcs) =
          options.map (fun option =>
            { optionId := option.id,
              score := criteria.enum.foldl (fun acc p =>
                jadd acc (jmul (orZero (cellGet
                  (calculateScores options criteria vals funcs)
                  option.id p.2.id)) (orZero weights[p.1]?)))
                (num 0) }) := rfl
      rw [hmap] at h ⊢
      refine List.map_congr_left (fun o ho => ?_)
      have hsc := h _ (List.mem_map_of_mem _ ho)
      exact congrArg (fun sc => ({ optionId := o.id, score := sc } :
        FinalScore)) hsc
  · have hB : calculateFinalScores [⟨"A", "A"⟩] [⟨"c1", "c1"⟩] [num 1]
        (calculateScores [⟨"A", "A"⟩] [⟨"c1", "c1"⟩]
          [("A", [("c1", JsVal.str "Low")])]
          [("c1", ⟨"qualitative", "table", "", [], [⟨"Low", 100⟩]⟩)]) =
        [{ optionId := "A", score := num 100 }] := by
      with_unfolding_all rfl
    have hA : calculateFinalScores [⟨"A", "A"⟩] [⟨"c1", "c1"⟩] [num 1]
        (calculateOptionValues [⟨"A", "A"⟩] [⟨"c1", "c1"⟩]
          [("c1", ⟨"qualitative", "table", "", [], [⟨"Low", 100⟩]⟩)]) =
        [{ optionId := "A", score := num 0 }] := by
      with_unfolding_all rfl
    rw [hB, hA]
    intro h
    have h1 := List.cons.inj h
    have h2 := congrArg FinalScore.score h1.1
    have h3 : (100 : ℚ) = 0 := by injection h2
    norm_num at h3

/-- Witness for C2: a state with option `"A"` and criterion `"c1"`
(neither an index nor `length`), a qualitative function, and weight 1:
`calculateOptionValues` produces the all-zero grid and the all-zero
score list. -/
theorem claim2_pipelines_witness :
    calculateOptionValues [⟨"A", "A"⟩] [⟨"c1", "c1"⟩]
      [("c1", ⟨"qualitative", "table", "", [], [⟨"Low", 100⟩]⟩)] =
      [("A", [("c1", num 0)])] ∧
    calculateFinalScores [⟨"A", "A"⟩] [⟨"c1", "c1"⟩] [num 1]
      (calculateOptionValues [⟨"A", "A"⟩] [⟨"c1", "c1"⟩]
        [("c1", ⟨"qualitative", "table", "", [], [⟨"Low", 100⟩]⟩)]) =
      [{ optionId := "A", score := num 0 }] := by
  have h := claim2_pipelines [⟨"A", "A"⟩] [⟨"c1", "c1"⟩]
    [("c1", ⟨"qualitative", "table", "", [], [⟨"Low", 100⟩]⟩)]
    [("A", [("c1", JsVal.str "Low")])] [num 1]
    (by
      intro o ho c hc
      simp only [List.mem_singleton] at ho hc
      rw [ho, hc]
      rintro (h | ⟨i, hi, hrepr⟩)
      · exact absurd h (by decide)
      · have hlen : ("A" : String).length = 1 := rfl
        rw [hlen] at hi
        have h0 : i = 0 := Nat.lt_one_iff.1 hi
        subst h0
        exact absurd hrepr (by with_unfolding_all decide))
    (by
      intro w hw
      simp only [List.mem_singleton] at hw
      exact ⟨1, hw⟩)
  constructor
  · rw [h.1]
    with_unfolding_all rfl
  · rw [h.2.1]
    with_unfolding_all rfl

/-- Witness for C6 at the all-ones 2×2 matrix: weights `[1/2, 1/2]` of
length 2 summing to 1. -/
theorem claim6_weights_normalized_witness :
    (1 ≤ 2 →
      (calculateWeights (liftMatrix [[1, 1], [1, 1]])).length = 2 ∧
      (calculateWeights (liftMatrix [[1, 1], [1, 1]])).foldl jadd
        (num 0) = num 1 ∧
      (calculateWeights (normalizeMatrix (liftMatrix [[1, 1], [1, 1]]))).length
        = 2 ∧
      (calculateWeights (normalizeMatrix (liftMatrix [[1, 1], [1, 1]]))).foldl
        jadd (num 0) = num 1) ∧
    (2 = 0 → calculateWeights (liftMatrix [[1, 1], [1, 1]]) = []) :=
  claim6_weights_normalized [[1, 1], [1, 1]] 2
    (by unfold IsSquare; with_unfolding_all decide)
    (by with_unfolding_all decide)

end AHP
